import Mathlib

/-!
Verification development for the stock-snr-app repository.

The Python sources (src/app.py, src/data_updater.py,
src/fetch_industry_and_sectors.py) are shallowly embedded below.  Machine
floats are modelled by exact rationals (ℚ), pandas missing values (NaN/None)
by Option, raised exceptions by Except, and the results of remote fetches
(yfinance, TWSE/MOPS endpoints) are parameters of the embedded functions,
since the spec treats those providers as opaque tabular services.
-/

set_option maxRecDepth 100000

namespace StockSnr

/-! ## Generic helpers (pandas primitives used by the sources) -/

/-- Minimum of a list of rationals, as pandas Series.min over the non-null
values; the default for the (never used) empty case is 0. -/
def listMin : List ℚ → ℚ
  | [] => 0
  | x :: xs => xs.foldl min x

/-- Maximum of a list of rationals, as pandas Series.max. -/
def listMax : List ℚ → ℚ
  | [] => 0
  | x :: xs => xs.foldl max x

/-- Python max over a list of dates; only applied to nonempty lists in the
sources, where foldl max 0 agrees with it. -/
def maxNat (l : List Nat) : Nat := l.foldl max 0

/-- pandas DataFrame.mean(axis=1, skipna=True) over one row of optional
cells: the unweighted mean of the present values, NaN when none is present. -/
def meanOpt (xs : List (Option ℚ)) : Option ℚ :=
  let p := xs.filterMap id
  if p.isEmpty then none else some (p.sum / (p.length : ℚ))

/-- Linear-interpolation quantile of an (already sorted) nonempty sample,
as numpy/pandas interpolation="linear": h = (n-1)q, the result interpolates
between the entries at positions floor h and floor h + 1. -/
def quantileLinear (xs : List ℚ) (q : ℚ) : ℚ :=
  let h : ℚ := ((xs.length : ℚ) - 1) * q
  let j : Nat := (⌊h⌋).toNat
  let g : ℚ := h - (j : ℚ)
  xs.getD j 0 + g * (xs.getD (j + 1) 0 - xs.getD j 0)

/-- The interpolation kernel of quantileLinear at an abstract position h. -/
def interpAt (xs : List ℚ) (h : ℚ) : ℚ :=
  let j : Nat := (⌊h⌋).toNat
  let g : ℚ := h - (j : ℚ)
  xs.getD j 0 + g * (xs.getD (j + 1) 0 - xs.getD j 0)

/-- The trailing window of width `window` ending at index i (inclusive). -/
def trailingWindow (closes : List ℚ) (window i : Nat) : List ℚ :=
  (closes.take (i + 1)).drop (i + 1 - window)

/-- pandas Series.rolling(window, min_periods).quantile(q): at each index
the quantile of the trailing window, NaN while fewer than min_periods
samples are available. -/
def rollingQuantile (closes : List ℚ) (window minp : Nat) (q : ℚ) :
    List (Option ℚ) :=
  (List.range closes.length).map (fun i =>
    let win := trailingWindow closes window i
    if win.length < minp then none
    else some (quantileLinear (List.insertionSort (· ≤ ·) win) q))

/-! ## Price data model -/

/-- A price row after fetch_history: date (as an abstract ordinal) and a
present close. -/
structure Bar where
  date : Nat
  close : ℚ
deriving DecidableEq

/-- A raw row of the upstream yfinance daily table: the close may be NaN. -/
structure RawBar where
  date : Nat
  close : Option ℚ
deriving DecidableEq

/-- A close-price DataFrame as seen by compute_snr: either it lacks the
Close column altogether (only a row count remains relevant) or it carries
date/close rows.  fetch_history only ever produces the second form. -/
inductive CloseData where
  | noClose (nRows : Nat)
  | withClose (rows : List Bar)
deriving DecidableEq

/-- Number of rows of the frame. -/
def CloseData.nRows : CloseData → Nat
  | .noClose n => n
  | .withClose rows => rows.length

/-- The trailing-window count of close samples at index i: zero when the
Close column is missing, otherwise min(i+1, window) since every close of
the column is non-null. -/
def sampleCount (d : CloseData) (window i : Nat) : Nat :=
  match d with
  | .noClose _ => 0
  | .withClose _ => min (i + 1) window

/-- The minimum-sample floor max(20, window//4) passed as min_periods. -/
def minPeriods (window : Nat) : Nat := max 20 (window / 4)

/-- fetch_history (both src/app.py lines 68-81 and src/data_updater.py lines
90-102), taken at the row level: `resp` is the yfinance result (none when
`df is None or df.empty`); the single/multi-level column normalization does
not change row content, and `dropna(subset=["Close"])` keeps, in order,
exactly the rows whose close is present. -/
def fetch_history (resp : Option (List RawBar)) : List Bar :=
  match resp with
  | none => []
  | some rows => rows.filterMap (fun r => r.close.map (fun c => ⟨r.date, c⟩))

namespace App

/-- The three band columns that src/app.py compute_snr assigns onto a copy
of the input frame (the input columns themselves are returned unchanged).
The source column names are 支撐 (support), 中位 (median), 壓力 (resistance). -/
structure BandCols where
  support : Option ℚ
  median : Option ℚ
  resistance : Option ℚ
deriving DecidableEq

/-- compute_snr of src/app.py lines 83-91.  Empty input or missing Close
column returns same-length all-NA band columns; otherwise the 20/50/80
rolling quantiles with min_periods = max(20, window//4).  pandas raises
ValueError when min_periods exceeds the window, modelled by the error
branch. -/
def compute_snr (df : CloseData) (window : Nat) :
    Except String (List BandCols) :=
  match df with
  | .noClose n => .ok (List.replicate n ⟨none, none, none⟩)
  | .withClose rows =>
    if rows.isEmpty then .ok (List.replicate rows.length ⟨none, none, none⟩)
    else if window < minPeriods window then
      .error ("min_periods must be <= window")
    else
      let closes := rows.map (·.close)
      let s := rollingQuantile closes window (minPeriods window) (1/5)
      let m := rollingQuantile closes window (minPeriods window) (1/2)
      let r := rollingQuantile closes window (minPeriods window) (4/5)
      .ok ((List.range rows.length).map (fun i =>
        ⟨s.getD i none, m.getD i none, r.getD i none⟩))

end App

namespace Updater

/-- One row of the frame built by src/data_updater.py compute_snr. -/
structure SnrFrameRow where
  Date : Nat
  Close : ℚ
  S : Option ℚ
  N : Option ℚ
  R : Option ℚ
deriving DecidableEq

/-- compute_snr of src/data_updater.py lines 104-114: unlike the app
variant it returns None (not a same-length frame) when the input is empty
or lacks the Close column. -/
def compute_snr (df : CloseData) (window_days : Nat) :
    Except String (Option (List SnrFrameRow)) :=
  match df with
  | .noClose _ => .ok none
  | .withClose rows =>
    if rows.isEmpty then .ok none
    else if window_days < minPeriods window_days then
      .error ("min_periods must be <= window")
    else
      let closes := rows.map (·.close)
      let s := rollingQuantile closes window_days (minPeriods window_days) (1/5)
      let n := rollingQuantile closes window_days (minPeriods window_days) (1/2)
      let r := rollingQuantile closes window_days (minPeriods window_days) (4/5)
      .ok (some ((List.range rows.length).map (fun i =>
        ⟨(rows.getD i ⟨0, 0⟩).date, (rows.getD i ⟨0, 0⟩).close,
         s.getD i none, n.getD i none, r.getD i none⟩)))

end Updater

/-! ## Advisory text (src/app.py lines 93-102) -/

/-- suggest: last close, support S and resistance R may each be NaN;
`near` is the proximity proportion (slider default 0.03).  A distance is
math.inf (hence never ≤ near) when its boundary is falsy, i.e. zero. -/
def suggest (last_close S R : Option ℚ) (near : ℚ) : String :=
  match last_close, S, R with
  | some c, some s, some r =>
    let dS_le : Bool := if s = 0 then false else decide ((c - s) / s ≤ near)
    let dR_le : Bool := if r = 0 then false else decide ((r - c) / r ≤ near)
    if dS_le then "接近支撐：偏多、可分批佈局"
    else if dR_le then "接近壓力：保守、等待回檔"
    else if c < (s + r) / 2 then "區間下半：偏多但勿追高"
    else "區間上半：觀望或逢高減碼"
  | _, _, _ => "資料不足"

/-! ## Cross-sectional scorer (src/app.py lines 104-126) -/

/-- pandas Series.rank(method="average", ascending=asc, na_option="keep")
applied to one value: the average rank of v among the non-null values of
the series, i.e. (number of strictly better-ranked values) + (ties+1)/2,
where "better-ranked" means smaller when ascending and larger when
descending. -/
def avgRank (vals : List ℚ) (asc : Bool) (v : ℚ) : ℚ :=
  let less :=
    match asc with
    | true => (vals.filter (fun w => decide (w < v))).length
    | false => (vals.filter (fun w => decide (v < w))).length
  let eq := (vals.filter (fun w => decide (w = v))).length
  (less : ℚ) + ((eq : ℚ) + 1) / 2

/-- The full Series.rank(method="average", na_option="keep"): null entries
stay null, each non-null entry gets its average rank over the non-null
values. -/
def rankSeries (s : List (Option ℚ)) (asc : Bool) : List (Option ℚ) :=
  s.map (Option.map (avgRank (s.filterMap id) asc))

/-- rank of src/app.py lines 105-110 (inner function of score_frame):
average-tie ranking, then if every rank is NaN an all-NaN series, if
rmax == rmin a constant 0.5 series (over ALL positions), else the linear
rescale (rmax - r)/(rmax - rmin). -/
def rank (s : List (Option ℚ)) (asc : Bool) : List (Option ℚ) :=
  let r := rankSeries s asc
  if r.all (·.isNone) then s.map (fun _ => none)
  else
    let rv := r.filterMap id
    let rmin := listMin rv
    let rmax := listMax rv
    if rmax = rmin then s.map (fun _ => some (1/2))
    else r.map (Option.map (fun x => (rmax - x) / (rmax - rmin)))

/-- The fundamentals columns consumed by score_frame; every cell may be
absent. -/
structure FundRow where
  trailingPE : Option ℚ
  priceToBook : Option ℚ
  returnOnEquity : Option ℚ
  grossMargins : Option ℚ
  operatingMargins : Option ℚ
  revenueGrowth : Option ℚ
  earningsGrowth : Option ℚ
deriving DecidableEq

/-- The score columns produced by score_frame.  Source column names are
估值分數 (valuation score), 品質分數 (quality score), 成長分數 (growth
score) and total_score. -/
structure ScoreCols where
  valuation_score : Option ℚ
  quality_score : Option ℚ
  growth_score : Option ℚ
  total_score : Option ℚ
deriving DecidableEq

/-- Modelled from the spec: the unweighted mean of the constituent
normalized ranks with absent inputs skipped (not zero-filled), absent when
no constituent is present. -/
def specUnweightedMean (xs : List (Option ℚ)) : Option ℚ :=
  let present := xs.filterMap id
  if present = [] then none else some (present.sum / (present.length : ℚ))

/-- The weighted composite 0.40*val + 0.35*qua + 0.25*gro of the three
sub-scores; when any sub-score is NaN the float arithmetic of the source
propagates NaN, modelled by none. -/
def weightedTotal (v q g : Option ℚ) : Option ℚ :=
  match v, q, g with
  | some a, some b, some c => some ((0.40 : ℚ) * a + (0.35 : ℚ) * b + (0.25 : ℚ) * c)
  | _, _, _ => none

/-- score_frame of src/app.py lines 104-126: per-column direction-aware
ranks, row-wise skipna means for the three sub-scores, and the weighted
total 0.40/0.35/0.25 (NaN sub-scores propagate to a NaN total, as float
arithmetic with NaN does). -/
def score_frame (df : List FundRow) : List (FundRow × ScoreCols) :=
  let pe := rank (df.map (·.trailingPE)) true
  let pb := rank (df.map (·.priceToBook)) true
  let roe := rank (df.map (·.returnOnEquity)) false
  let gm := rank (df.map (·.grossMargins)) false
  let om := rank (df.map (·.operatingMargins)) false
  let rg := rank (df.map (·.revenueGrowth)) false
  let eg := rank (df.map (·.earningsGrowth)) false
  (List.range df.length).map (fun i =>
    let v := meanOpt [pe.getD i none, pb.getD i none]
    let q := meanOpt [roe.getD i none, gm.getD i none, om.getD i none]
    let g := meanOpt [rg.getD i none, eg.getD i none]
    (df.getD i ⟨none, none, none, none, none, none, none⟩, ⟨v, q, g, weightedTotal v q g⟩))

/-! ## Sector performance (src/fetch_industry_and_sectors.py lines 121-170) -/

/-- A fundamentals row after attach_industry_to_fundamentals: ticker,
industry label (NaN possible) and market capitalization (NaN possible). -/
structure FundIndRow where
  Ticker : String
  twse_industry : Option String
  marketCap : Option ℚ
deriving DecidableEq

/-- A snr_df row as consumed by compute_sector_performance: ticker and the
(possibly NaN) daily-return column. -/
structure SnrRetRow where
  Ticker : String
  DailyReturn : Option ℚ
deriving DecidableEq

/-- _weighted_daily_return of src/fetch_industry_and_sectors.py lines
121-126: drop pairs with an absent member, clip the capitalizations at
zero, NaN when nothing remains or the clipped weight sum is zero, else
sum(ret*w)/sum(w). -/
def _weighted_daily_return (pairs : List (Option ℚ × Option ℚ)) : Option ℚ :=
  let df := pairs.filterMap (fun p => p.1.bind (fun r => p.2.map (fun m => (r, m))))
  if df.isEmpty then none
  else
    let wsum := (df.map (fun p => max p.2 0)).sum
    if wsum = 0 then none
    else some ((df.map (fun p => p.1 * max p.2 0)).sum / wsum)

/-- Modelled from the spec: the market-cap-weighted mean daily return,
sum(return*cap)/sum(cap) computed over the pairs remaining after dropping
absent ones, with weights clipped at zero, absent when the weight sum is
zero. -/
def specWeightedMean (pairs : List (Option ℚ × Option ℚ)) : Option ℚ :=
  let kept := pairs.filterMap (fun p => p.1.bind (fun r => p.2.map (fun m => (r, m))))
  let wsum := (kept.map (fun p => max p.2 0)).sum
  if wsum = 0 then none
  else some ((kept.map (fun p => p.1 * max p.2 0)).sum / wsum)

/-- A row of the merged frame fund_df_with_ind ⋈ snr_use: the daily return
is present by construction of snr_use. -/
structure BaseRow where
  Ticker : String
  twse_industry : Option String
  marketCap : Option ℚ
  DailyReturn : ℚ
deriving DecidableEq

/-- One output row of compute_sector_performance. -/
structure PerfRow where
  twse_industry : Option String
  n : Nat
  industry_ret : Option ℚ
  market_ret : Option ℚ
  diff : Option ℚ
  relation : String
deriving DecidableEq

/-- The inner merge base = fund_df_with_ind.merge(snr_use, on="Ticker",
how="inner"); pandas keeps the left frame's key order. -/
def sectorBase (fund : List FundIndRow) (snr : List SnrRetRow) : List BaseRow :=
  let snr_use := snr.filterMap (fun s => s.DailyReturn.map (fun r => (s.Ticker, r)))
  fund.flatMap (fun f =>
    (snr_use.filter (fun s => decide (s.1 = f.Ticker))).map (fun s =>
      ⟨f.Ticker, f.twse_industry, f.marketCap, s.2⟩))

/-- The (Option return, Option cap) pairs that _weighted_daily_return sees
for a sub-frame of base rows. -/
def basePairs (rows : List BaseRow) : List (Option ℚ × Option ℚ) :=
  rows.map (fun b => (some b.DailyReturn, b.marketCap))

/-- Ordering of group keys: pandas groupby(sort=True, dropna=False) sorts
the string keys ascending and places the NaN key last. -/
def optStrLE : Option String → Option String → Bool
  | none, none => true
  | none, some _ => false
  | some _, none => true
  | some a, some b => decide (a ≤ b)

/-- The distinct group keys of base, in groupby order. -/
def groupKeys (base : List BaseRow) : List (Option String) :=
  ((base.map (·.twse_industry)).dedup).mergeSort optStrLE

/-- The relation label: NaN diff → 相似 (in line), diff ≥ threshold →
優於大盤 (outperforming), diff ≤ -threshold → 劣於大盤 (underperforming),
else 相似. -/
def relationOf (diff : Option ℚ) (threshold : ℚ) : String :=
  match diff with
  | none => "相似"
  | some d =>
    if threshold ≤ d then "優於大盤"
    else if d ≤ -threshold then "劣於大盤"
    else "相似"

/-- One group's output row.  Python's `ind or "未分類"` turns only a falsy
key (the empty string) into 未分類 (unclassified): a NaN key is truthy in
Python and stays NaN. -/
def perfRowFor (base : List BaseRow) (market_ret : Option ℚ) (threshold : ℚ)
    (ind : Option String) : PerfRow :=
  let g := base.filter (fun b => decide (b.twse_industry = ind))
  let ind_ret := _weighted_daily_return (basePairs g)
  let diff : Option ℚ :=
    match ind_ret, market_ret with
    | some a, some b => some (a - b)
    | _, _ => none
  { twse_industry :=
      match ind with
      | some s => if s = "" then some ("未分類") else some s
      | none => none
    n := g.length
    industry_ret := ind_ret
    market_ret := market_ret
    diff := diff
    relation := relationOf diff threshold }

/-- The final sort_values(["relation", "diff"], ascending=[True, False])
comparator: relation ascending, then diff descending with NaN last. -/
def perfSortLE (a b : PerfRow) : Bool :=
  if a.relation = b.relation then
    match a.diff, b.diff with
    | some x, some y => decide (y ≤ x)
    | some _, none => true
    | none, some _ => false
    | none, none => true
  else decide (a.relation < b.relation)

/-- compute_sector_performance of src/fetch_industry_and_sectors.py lines
128-170.  The source's default threshold is 0.003. -/
def compute_sector_performance (fund : List FundIndRow) (snr : List SnrRetRow)
    (threshold : ℚ) : List PerfRow :=
  if fund.isEmpty || snr.isEmpty then []
  else
    let base := sectorBase fund snr
    let market_ret := _weighted_daily_return (basePairs base)
    ((groupKeys base).map (perfRowFor base market_ret threshold)).mergeSort perfSortLE

/-! ## Dataset writer / fallback manager (src/data_updater.py) -/

/-- os.path.basename. -/
def basename (path : String) : String := (path.splitOn ("/")).getLastD path

/-- The date the fallback extracts from a snapshot file name:
basename(p).split("_")[-1].replace(".csv", "").  Python str.split always
returns a nonempty list and str.replace replaces every occurrence, so this
never raises and the `except` branch of the source (which would substitute
today's date) is unreachable. -/
def parseFileDate (path : String) : String :=
  (((basename path).splitOn ("_")).getLastD ("")).replace (".csv") ("")

/-- The data written by a successful fallback: both tables with their
asOfDate column overwritten, plus the date used. -/
structure FallbackResult (α β : Type) where
  fundamentals : List (α × String)
  snr_summary : List (β × String)
  asOfDate : String
deriving DecidableEq

/-- use_previous_as_fallback of src/data_updater.py lines 182-200.  The
inputs are the globbed dated CSV files, each a (path, rows) pair where a
row is (payload columns, asOfDate column); `today` is dt.date.today().
The source sorts each glob result, takes the last of each, reads both,
re-stamps both with the date parsed from the snr file name and overwrites
the parquet "latest" pointers; with either glob empty it logs FATAL and
writes nothing. -/
def use_previous_as_fallback {α β : Type}
    (prev_f : List (String × List (α × String)))
    (prev_s : List (String × List (β × String)))
    (_today : String) : Option (FallbackResult α β) :=
  let pf := prev_f.mergeSort (fun a b => decide (a.1 ≤ b.1))
  let ps := prev_s.mergeSort (fun a b => decide (a.1 ≤ b.1))
  match pf.getLast?, ps.getLast? with
  | some f, some s =>
    let file_date := parseFileDate s.1
    some ⟨f.2.map (fun r => (r.1, file_date)),
          s.2.map (fun r => (r.1, file_date)), file_date⟩
  | _, _ => none

/-- One parsed row of fetch_tw_tickers' result (the registry fetch is a
remote service, so main below takes this table as an input). -/
structure TickerRow where
  code : String
  name : String
  market : String
  yahoo : String
deriving DecidableEq

/-- One row of the snr_summary table assembled by main. -/
structure SnrSummaryRow where
  Ticker : String
  LastDate : Nat
  Close : ℚ
  S : Option ℚ
  N : Option ℚ
  R : Option ℚ
deriving DecidableEq

/-- Terminal states of one refresh cycle: new data written, the previous
snapshot reused, or total failure with nothing to reuse. -/
inductive MainOutcome where
  | written (fundamentals : List (String × Nat)) (snr_summary : List (SnrSummaryRow × Nat)) (asOfDate : Nat)
  | reused (r : FallbackResult String String)
  | failed
deriving DecidableEq

/-- The outcome of taking the fallback path. -/
def fallbackOutcome (prev_f prev_s : List (String × List (String × String)))
    (today : String) : MainOutcome :=
  match use_previous_as_fallback prev_f prev_s today with
  | none => .failed
  | some r => .reused r

/-- The most recent observed trading date of a nonempty history:
pd.to_datetime(hist["Date"].iloc[-1]).date(). -/
def lastDateOf (rows : List Bar) : Nat := (rows.getLastD ⟨0, 0⟩).date

/-- Accumulator of the per-ticker SNR loop of main. -/
structure SnrAcc where
  last_dates : List Nat
  snr_rows : List SnrSummaryRow
deriving DecidableEq

/-- One iteration of the SNR loop (src/data_updater.py lines 140-160):
`resp` is the yfinance outcome for this ticker (error = an exception,
caught by the loop's try).  The last-date append happens before compute_snr
runs, so it survives a later skip, exactly as the Python list does. -/
def snrStep (acc : SnrAcc) (t : String) (resp : Except Unit (Option (List RawBar))) : SnrAcc :=
  match resp with
  | .error _ => acc
  | .ok r =>
    let hist := fetch_history r
    if hist.isEmpty then acc
    else
      let lds := acc.last_dates ++ [lastDateOf hist]
      match Updater.compute_snr (.withClose hist) 120 with
      | .error _ => ⟨lds, acc.snr_rows⟩
      | .ok none => ⟨lds, acc.snr_rows⟩
      | .ok (some snr) =>
        if (snr.filter (fun row => row.S.isSome && row.N.isSome && row.R.isSome)).isEmpty then
          ⟨lds, acc.snr_rows⟩
        else
          let last := snr.getLastD ⟨0, 0, none, none, none⟩
          ⟨lds, acc.snr_rows ++ [⟨t, last.Date, last.Close, last.S, last.N, last.R⟩]⟩

/-- The whole SNR loop over the ticker list. -/
def snrLoop (tickers : List String) (resp : String → Except Unit (Option (List RawBar))) : SnrAcc :=
  tickers.foldl (fun acc t => snrStep acc t (resp t)) ⟨[], []⟩

/-- The most-recent observed trading dates, one per symbol with a usable
(nonempty) fetched history, in ticker order: the specification-level view
of snrLoop's last_dates list. -/
def mostRecentDates (tickers : List String) (resp : String → Except Unit (Option (List RawBar))) : List Nat :=
  tickers.filterMap (fun t =>
    match resp t with
    | .error _ => none
    | .ok r =>
      let hist := fetch_history r
      if hist.isEmpty then none else some (lastDateOf hist))

/-- main of src/data_updater.py lines 117-180.  Its remote interactions are
parameters: `tickers_df` is fetch_tw_tickers' result, `pull` the per-ticker
pull_fundamentals outcome (the record payload is opaque here; an error is
an exception, caught and skipped by the loop), `resp` the per-ticker
yfinance history outcome, and prev_f/prev_s/today feed the fallback. -/
def main (tickers_df : List TickerRow) (pull : String → Except Unit String)
    (resp : String → Except Unit (Option (List RawBar)))
    (prev_f prev_s : List (String × List (String × String)))
    (today : String) : MainOutcome :=
  if tickers_df.isEmpty || tickers_df.length < 100 then
    fallbackOutcome prev_f prev_s today
  else
    let tickers := tickers_df.map (·.yahoo)
    let fund_rows := tickers.filterMap (fun t => (pull t).toOption)
    if fund_rows.isEmpty then fallbackOutcome prev_f prev_s today
    else
      let acc := snrLoop tickers resp
      if acc.last_dates.isEmpty || acc.snr_rows.isEmpty then
        fallbackOutcome prev_f prev_s today
      else
        let file_date := maxNat acc.last_dates
        .written (fund_rows.map (fun r => (r, file_date)))
                 (acc.snr_rows.map (fun r => (r, file_date)))
                 file_date

/-! ## Concrete cycle inputs used to exercise main -/

/-- A registry of 100 plausible tickers (the smallest universe main accepts). -/
def w8tickers : List TickerRow := (List.range 100).map (fun i => ⟨toString i, "", "", toString i⟩)

/-- A fundamentals fetch that succeeds for every ticker. -/
def w8pull : String → Except Unit String := fun t => .ok t

/-- A history fetch giving ticker "0" thirty constant-close bars on dates
0..29 and every other ticker no data. -/
def w8resp : String → Except Unit (Option (List RawBar)) :=
  fun t => if t = "0" then .ok (some ((List.range 30).map (fun j => ⟨j, some 1⟩))) else .ok none

/-- The fundamentals table main writes on the above inputs. -/
def w8fund : List (String × Nat) := ((List.range 100).map (fun i => toString i)).map (fun t => (t, 29))

/-- The snr_summary table main writes on the above inputs. -/
def w8snr : List (SnrSummaryRow × Nat) := [(⟨"0", 29, 1, some 1, some 1, some 1⟩, 29)]

/-!
## Theorems

First general lemmas about the list primitives, then one theorem per claim
of the specification review (with counterexamples and witnesses where the
claim's status calls for them).
-/

theorem foldl_min_le_init (l : List ℚ) (a : ℚ) : l.foldl min a ≤ a := by
  induction l generalizing a with
  | nil => simp
  | cons x xs ih => exact le_trans (ih (min a x)) (min_le_left a x)

theorem foldl_min_le_mem (l : List ℚ) (a : ℚ) : ∀ x ∈ l, l.foldl min a ≤ x := by
  induction l generalizing a with
  | nil => simp
  | cons y ys ih =>
    intro x hx
    rcases List.mem_cons.mp hx with h | h
    · subst h
      exact le_trans (foldl_min_le_init ys (min a x)) (min_le_right a x)
    · exact ih (min a y) x h

theorem foldl_min_mem (l : List ℚ) (a : ℚ) : l.foldl min a = a ∨ l.foldl min a ∈ l := by
  induction l generalizing a with
  | nil => simp
  | cons y ys ih =>
    have hstep : (y :: ys).foldl min a = ys.foldl min (min a y) := rfl
    rcases ih (min a y) with h | h
    · rcases min_cases a y with ⟨he, _⟩ | ⟨he, _⟩
      · left; rw [hstep, h, he]
      · right; rw [hstep, h, he]; exact List.mem_cons_self y ys
    · right; rw [hstep]; exact List.mem_cons_of_mem y h

theorem foldl_max_init_le (l : List ℚ) (a : ℚ) : a ≤ l.foldl max a := by
  induction l generalizing a with
  | nil => simp
  | cons x xs ih => exact le_trans (le_max_left a x) (ih (max a x))

theorem foldl_max_mem_le (l : List ℚ) (a : ℚ) : ∀ x ∈ l, x ≤ l.foldl max a := by
  induction l generalizing a with
  | nil => simp
  | cons y ys ih =>
    intro x hx
    rcases List.mem_cons.mp hx with h | h
    · subst h
      exact le_trans (le_max_right a x) (foldl_max_init_le ys (max a x))
    · exact ih (max a y) x h

theorem foldl_max_mem (l : List ℚ) (a : ℚ) : l.foldl max a = a ∨ l.foldl max a ∈ l := by
  induction l generalizing a with
  | nil => simp
  | cons y ys ih =>
    have hstep : (y :: ys).foldl max a = ys.foldl max (max a y) := rfl
    rcases ih (max a y) with h | h
    · rcases max_cases a y with ⟨he, _⟩ | ⟨he, _⟩
      · left; rw [hstep, h, he]
      · right; rw [hstep, h, he]; exact List.mem_cons_self y ys
    · right; rw [hstep]; exact List.mem_cons_of_mem y h

theorem listMin_le {l : List ℚ} {x : ℚ} (hx : x ∈ l) : listMin l ≤ x := by
  cases l with
  | nil => cases hx
  | cons y ys =>
    rcases List.mem_cons.mp hx with h | h
    · subst h; exact foldl_min_le_init ys x
    · exact foldl_min_le_mem ys y x h

theorem le_listMax {l : List ℚ} {x : ℚ} (hx : x ∈ l) : x ≤ listMax l := by
  cases l with
  | nil => cases hx
  | cons y ys =>
    rcases List.mem_cons.mp hx with h | h
    · subst h; exact foldl_max_init_le ys x
    · exact foldl_max_mem_le ys y x h

theorem listMin_mem {l : List ℚ} (h : l ≠ []) : listMin l ∈ l := by
  cases l with
  | nil => exact absurd rfl h
  | cons y ys =>
    show ys.foldl min y ∈ y :: ys
    rcases foldl_min_mem ys y with h1 | h1
    · rw [h1]; exact List.mem_cons_self y ys
    · exact List.mem_cons_of_mem y h1

theorem listMax_mem {l : List ℚ} (h : l ≠ []) : listMax l ∈ l := by
  cases l with
  | nil => exact absurd rfl h
  | cons y ys =>
    show ys.foldl max y ∈ y :: ys
    rcases foldl_max_mem ys y with h1 | h1
    · rw [h1]; exact List.mem_cons_self y ys
    · exact List.mem_cons_of_mem y h1

theorem nat_foldl_max_init_le (l : List Nat) (a : Nat) : a ≤ l.foldl max a := by
  induction l generalizing a with
  | nil => simp
  | cons x xs ih => exact le_trans (le_max_left a x) (ih (max a x))

theorem nat_foldl_max_mem_le (l : List Nat) (a : Nat) : ∀ x ∈ l, x ≤ l.foldl max a := by
  induction l generalizing a with
  | nil => simp
  | cons y ys ih =>
    intro x hx
    rcases List.mem_cons.mp hx with h | h
    · subst h
      exact le_trans (le_max_right a x) (nat_foldl_max_init_le ys (max a x))
    · exact ih (max a y) x h

theorem nat_foldl_max_mem (l : List Nat) (a : Nat) : l.foldl max a = a ∨ l.foldl max a ∈ l := by
  induction l generalizing a with
  | nil => simp
  | cons y ys ih =>
    have hstep : (y :: ys).foldl max a = ys.foldl max (max a y) := rfl
    rcases ih (max a y) with h | h
    · rcases max_cases a y with ⟨he, _⟩ | ⟨he, _⟩
      · left; rw [hstep, h, he]
      · right; rw [hstep, h, he]; exact List.mem_cons_self y ys
    · right; rw [hstep]; exact List.mem_cons_of_mem y h

theorem le_maxNat {l : List Nat} {x : Nat} (hx : x ∈ l) : x ≤ maxNat l :=
  nat_foldl_max_mem_le l 0 x hx

theorem getD_mono_of_sorted {xs : List ℚ} (hs : List.Sorted (· ≤ ·) xs) {i j : Nat}
    (hij : i ≤ j) (hj : j < xs.length) : xs.getD i 0 ≤ xs.getD j 0 := by
  have hi : i < xs.length := lt_of_le_of_lt hij hj
  rw [List.getD_eq_getElem xs 0 hi, List.getD_eq_getElem xs 0 hj]
  rcases eq_or_lt_of_le hij with h | h
  · subst h; exact le_refl _
  · have hf : (⟨i, hi⟩ : Fin xs.length) < ⟨j, hj⟩ := Fin.mk_lt_mk.mpr h
    have := @List.Sorted.rel_get_of_lt ℚ (· ≤ ·) xs hs ⟨i, hi⟩ ⟨j, hj⟩ hf
    simpa [List.get_eq_getElem] using this

theorem floor_toNat_cast {h : ℚ} (h0 : 0 ≤ h) : (((⌊h⌋).toNat : ℚ)) = (⌊h⌋ : ℚ) := by
  have : ((⌊h⌋).toNat : ℤ) = ⌊h⌋ := Int.toNat_of_nonneg (Int.floor_nonneg.mpr h0)
  exact_mod_cast congrArg (fun z : ℤ => (z : ℚ)) this

theorem fract_nonneg_toNat {h : ℚ} (h0 : 0 ≤ h) : 0 ≤ h - ((⌊h⌋).toNat : ℚ) := by
  rw [floor_toNat_cast h0]
  have := Int.floor_le h
  linarith

theorem fract_lt_one_toNat {h : ℚ} (h0 : 0 ≤ h) : h - ((⌊h⌋).toNat : ℚ) < 1 := by
  rw [floor_toNat_cast h0]
  have := Int.lt_floor_add_one h
  linarith

theorem floor_toNat_le_floor_toNat {h1 h2 : ℚ} (h : h1 ≤ h2) :
    (⌊h1⌋).toNat ≤ (⌊h2⌋).toNat :=
  Int.toNat_le_toNat (Int.floor_le_floor h)

theorem floor_toNat_le_pred {h : ℚ} {n : Nat} (hn : 1 ≤ n) (hh : h ≤ (n : ℚ) - 1) :
    (⌊h⌋).toNat ≤ n - 1 := by
  have hcast : ((n : ℚ) - 1) = ((n - 1 : ℕ) : ℚ) := by
    push_cast [Nat.cast_sub hn]
    ring
  have h1 : ⌊h⌋ ≤ ⌊((n - 1 : ℕ) : ℚ)⌋ := Int.floor_le_floor (hcast ▸ hh)
  rw [Int.floor_natCast] at h1
  omega

theorem fract_eq_zero_at_end {h : ℚ} {n : Nat} (h0 : 0 ≤ h) (hn : 1 ≤ n)
    (hh : h ≤ (n : ℚ) - 1) (hj : (⌊h⌋).toNat = n - 1) : h - ((⌊h⌋).toNat : ℚ) = 0 := by
  have hcast : (((⌊h⌋).toNat : ℕ) : ℚ) = (n : ℚ) - 1 := by
    rw [hj]
    push_cast [Nat.cast_sub hn]
    ring
  have hle : ((⌊h⌋).toNat : ℚ) ≤ h := by
    rw [floor_toNat_cast h0]; exact Int.floor_le h
  have : h = ((⌊h⌋).toNat : ℚ) := le_antisymm (by rw [hcast]; exact hh) hle
  linarith

theorem interpAt_mono {xs : List ℚ} (hs : List.Sorted (· ≤ ·) xs) (hne : xs ≠ [])
    {h1 h2 : ℚ} (h10 : 0 ≤ h1) (h12 : h1 ≤ h2) (h2n : h2 ≤ (xs.length : ℚ) - 1) :
    interpAt xs h1 ≤ interpAt xs h2 := by
  have hn : 1 ≤ xs.length := List.length_pos.mpr hne
  have h20 : 0 ≤ h2 := le_trans h10 h12
  have h1n : h1 ≤ (xs.length : ℚ) - 1 := le_trans h12 h2n
  have hj12 : (⌊h1⌋).toNat ≤ (⌊h2⌋).toNat := floor_toNat_le_floor_toNat h12
  have hj2n : (⌊h2⌋).toNat ≤ xs.length - 1 := floor_toNat_le_pred hn h2n
  have hg10 : 0 ≤ h1 - ((⌊h1⌋).toNat : ℚ) := fract_nonneg_toNat h10
  have hg11 : h1 - ((⌊h1⌋).toNat : ℚ) < 1 := fract_lt_one_toNat h10
  have hg20 : 0 ≤ h2 - ((⌊h2⌋).toNat : ℚ) := fract_nonneg_toNat h20
  simp only [interpAt]
  rcases Nat.lt_or_ge (⌊h1⌋).toNat (⌊h2⌋).toNat with hlt | hge
  · -- the two positions fall in different cells
    have hj1n : (⌊h1⌋).toNat + 1 < xs.length := by omega
    have hj2lt : (⌊h2⌋).toNat < xs.length := by omega
    have hab1 : xs.getD (⌊h1⌋).toNat 0 ≤ xs.getD ((⌊h1⌋).toNat + 1) 0 :=
      getD_mono_of_sorted hs (Nat.le_succ _) hj1n
    have hb1a2 : xs.getD ((⌊h1⌋).toNat + 1) 0 ≤ xs.getD (⌊h2⌋).toNat 0 :=
      getD_mono_of_sorted hs hlt hj2lt
    have hstep1 : xs.getD (⌊h1⌋).toNat 0 +
        (h1 - ((⌊h1⌋).toNat : ℚ)) * (xs.getD ((⌊h1⌋).toNat + 1) 0 - xs.getD (⌊h1⌋).toNat 0) ≤
        xs.getD ((⌊h1⌋).toNat + 1) 0 := by
      nlinarith [mul_nonneg (by linarith : (0:ℚ) ≤ 1 - (h1 - ((⌊h1⌋).toNat : ℚ)))
        (by linarith : (0:ℚ) ≤ xs.getD ((⌊h1⌋).toNat + 1) 0 - xs.getD (⌊h1⌋).toNat 0)]
    have hstep3 : xs.getD (⌊h2⌋).toNat 0 ≤ xs.getD (⌊h2⌋).toNat 0 +
        (h2 - ((⌊h2⌋).toNat : ℚ)) * (xs.getD ((⌊h2⌋).toNat + 1) 0 - xs.getD (⌊h2⌋).toNat 0) := by
      rcases Nat.lt_or_ge (⌊h2⌋).toNat (xs.length - 1) with hend | hend
      · have hj2n1 : (⌊h2⌋).toNat + 1 < xs.length := by omega
        have hab2 : xs.getD (⌊h2⌋).toNat 0 ≤ xs.getD ((⌊h2⌋).toNat + 1) 0 :=
          getD_mono_of_sorted hs (Nat.le_succ _) hj2n1
        nlinarith [mul_nonneg hg20
          (by linarith : (0:ℚ) ≤ xs.getD ((⌊h2⌋).toNat + 1) 0 - xs.getD (⌊h2⌋).toNat 0)]
      · have hj2eq : (⌊h2⌋).toNat = xs.length - 1 := by omega
        have hz : h2 - ((⌊h2⌋).toNat : ℚ) = 0 := fract_eq_zero_at_end h20 hn h2n hj2eq
        rw [hz]; simp
    linarith
  · -- same cell
    have hjeq : (⌊h1⌋).toNat = (⌊h2⌋).toNat := le_antisymm hj12 hge
    rcases Nat.lt_or_ge (⌊h1⌋).toNat (xs.length - 1) with hend | hend
    · have hj1n : (⌊h1⌋).toNat + 1 < xs.length := by omega
      have hab : xs.getD (⌊h1⌋).toNat 0 ≤ xs.getD ((⌊h1⌋).toNat + 1) 0 :=
        getD_mono_of_sorted hs (Nat.le_succ _) hj1n
      rw [← hjeq]
      have hgle : h1 - ((⌊h1⌋).toNat : ℚ) ≤ h2 - ((⌊h1⌋).toNat : ℚ) := by linarith
      nlinarith [mul_le_mul_of_nonneg_right hgle
        (by linarith : (0:ℚ) ≤ xs.getD ((⌊h1⌋).toNat + 1) 0 - xs.getD (⌊h1⌋).toNat 0)]
    · have hj1eq : (⌊h1⌋).toNat = xs.length - 1 := by omega
      have hj2eq : (⌊h2⌋).toNat = xs.length - 1 := by omega
      have hz1 : h1 - ((⌊h1⌋).toNat : ℚ) = 0 := fract_eq_zero_at_end h10 hn h1n hj1eq
      have hz2 : h2 - ((⌊h2⌋).toNat : ℚ) = 0 := fract_eq_zero_at_end h20 hn h2n hj2eq
      rw [hz1, hz2, hj1eq, hj2eq]

theorem quantileLinear_mono {xs : List ℚ} (hs : List.Sorted (· ≤ ·) xs) (hne : xs ≠ [])
    {p q : ℚ} (hp : 0 ≤ p) (hpq : p ≤ q) (hq : q ≤ 1) :
    quantileLinear xs p ≤ quantileLinear xs q := by
  have he1 : quantileLinear xs p = interpAt xs (((xs.length : ℚ) - 1) * p) := rfl
  have he2 : quantileLinear xs q = interpAt xs (((xs.length : ℚ) - 1) * q) := rfl
  rw [he1, he2]
  have hn : 1 ≤ xs.length := List.length_pos.mpr hne
  have hN : (0:ℚ) ≤ (xs.length : ℚ) - 1 := by
    have : (1:ℚ) ≤ (xs.length : ℚ) := by exact_mod_cast hn
    linarith
  exact interpAt_mono hs hne (mul_nonneg hN hp) (mul_le_mul_of_nonneg_left hpq hN)
    (by nlinarith)

theorem length_rollingQuantile (closes : List ℚ) (w m : Nat) (q : ℚ) :
    (rollingQuantile closes w m q).length = closes.length := by
  simp [rollingQuantile]

theorem trailingWindow_length {closes : List ℚ} {w i : Nat} (hi : i < closes.length) :
    (trailingWindow closes w i).length = min (i + 1) w := by
  simp only [trailingWindow, List.length_drop, List.length_take]
  omega

theorem getD_range_map {α : Type} (f : Nat → α) {n i : Nat} (hi : i < n) (dflt : α) :
    ((List.range n).map f).getD i dflt = f i := by
  rw [List.getD_eq_getElem _ _ (by simpa using hi)]
  simp

theorem rollingQuantile_getD {closes : List ℚ} {w m : Nat} {q : ℚ} {i : Nat}
    (hi : i < closes.length) :
    (rollingQuantile closes w m q).getD i none =
      (if (trailingWindow closes w i).length < m then none
       else some (quantileLinear (List.insertionSort (· ≤ ·) (trailingWindow closes w i)) q)) := by
  unfold rollingQuantile
  exact getD_range_map _ hi none

theorem rollingQuantile_getD_none_iff {closes : List ℚ} {w m : Nat} {q : ℚ} {i : Nat}
    (hi : i < closes.length) :
    ((rollingQuantile closes w m q).getD i none = none ↔ min (i + 1) w < m) := by
  rw [rollingQuantile_getD hi, trailingWindow_length hi]
  split <;> simp_all

theorem maxNat_mem {l : List Nat} (h : l ≠ []) : maxNat l ∈ l := by
  rcases nat_foldl_max_mem l 0 with h1 | h1
  · cases l with
    | nil => exact absurd rfl h
    | cons y ys =>
      have hy : y ≤ maxNat (y :: ys) := le_maxNat (List.mem_cons_self y ys)
      have hz : maxNat (y :: ys) = 0 := h1
      have hy0 : maxNat (y :: ys) = y := by omega
      rw [hy0]; exact List.mem_cons_self y ys
  · exact h1

/-- C6 (confirmed): the advisory-text function returns the
insufficient-data message exactly when one of close/support/resistance is
absent; otherwise it applies, in fixed priority order with first match
winning, the near-support, near-resistance, lower-half and upper-half
rules, a distance counting as infinite (never within `near`) when its
boundary is zero; and the spec's concrete scenario close=100, support=98,
resistance=150, near=0.03 produces the near-support advice. -/
theorem claim_C6 (last_close S R : Option ℚ) (near : ℚ) :
    (suggest last_close S R near = "資料不足" ↔
      (last_close = none ∨ S = none ∨ R = none)) ∧
    (∀ c s r, last_close = some c → S = some s → R = some r →
      ((s ≠ 0 → (c - s) / s ≤ near →
          suggest last_close S R near = "接近支撐：偏多、可分批佈局") ∧
       (¬ (s ≠ 0 ∧ (c - s) / s ≤ near) → r ≠ 0 → (r - c) / r ≤ near →
          suggest last_close S R near = "接近壓力：保守、等待回檔") ∧
       (¬ (s ≠ 0 ∧ (c - s) / s ≤ near) → ¬ (r ≠ 0 ∧ (r - c) / r ≤ near) →
          c < (s + r) / 2 →
          suggest last_close S R near = "區間下半：偏多但勿追高") ∧
       (¬ (s ≠ 0 ∧ (c - s) / s ≤ near) → ¬ (r ≠ 0 ∧ (r - c) / r ≤ near) →
          ¬ c < (s + r) / 2 →
          suggest last_close S R near = "區間上半：觀望或逢高減碼"))) ∧
    suggest (some 100) (some 98) (some 150) (3/100) = "接近支撐：偏多、可分批佈局" := by
  refine ⟨?_, ?_, ?_⟩
  · rcases last_close with _ | c <;> rcases S with _ | s <;> rcases R with _ | r <;>
      simp only [suggest] <;> try simp
    split_ifs <;> decide
  · intro c s r hc hs hr
    subst hc; subst hs; subst hr
    refine ⟨?_, ?_, ?_, ?_⟩
    · intro h0 hle
      simp [suggest, h0, hle]
    · intro hnS h0 hle
      rcases not_and_or.mp hnS with h1 | h1 <;> simp [suggest, h1, h0, hle]
    · intro hnS hnR hlow
      rcases not_and_or.mp hnS with h1 | h1 <;> rcases not_and_or.mp hnR with h2 | h2 <;>
        simp [suggest, h1, h2, hlow]
    · intro hnS hnR hup
      rcases not_and_or.mp hnS with h1 | h1 <;> rcases not_and_or.mp hnR with h2 | h2 <;>
        simp [suggest, h1, h2, hup]
  · with_unfolding_all decide

theorem fetch_history_map_sublist (rows : List RawBar) :
    ((fetch_history (some rows)).map (fun b => RawBar.mk b.date (some b.close))).Sublist rows := by
  induction rows with
  | nil => simp [fetch_history]
  | cons r rs ih =>
    rcases r with ⟨d, cl⟩
    rcases cl with _ | c
    · have hstep : fetch_history (some (RawBar.mk d none :: rs)) = fetch_history (some rs) := rfl
      rw [hstep]
      exact ih.cons _
    · have hstep : fetch_history (some (RawBar.mk d (some c) :: rs)) =
        Bar.mk d c :: fetch_history (some rs) := rfl
      rw [hstep, List.map_cons]
      exact ih.cons₂ _

/-- C7 (confirmed): for every upstream response, the price-history fetcher
returns only rows whose close is present, as an order-preserving selection
of the upstream rows; when the upstream rows are strictly ordered (and so
deduplicated) by date, the output is too; and no data — a missing or empty
upstream table — yields an empty sequence, not an error. -/
theorem claim_C7 (resp : Option (List RawBar)) :
    (resp = none → fetch_history resp = []) ∧
    (∀ rows, resp = some rows →
      ((fetch_history resp).map (fun b => RawBar.mk b.date (some b.close))).Sublist rows ∧
      (rows = [] → fetch_history resp = []) ∧
      (rows.Pairwise (fun a b => a.date < b.date) →
        (fetch_history resp).Pairwise (fun a b => a.date < b.date)) ∧
      (∀ b ∈ fetch_history resp, ∃ r ∈ rows, r.date = b.date ∧ r.close = some b.close)) := by
  constructor
  · intro h; subst h; rfl
  · intro rows h
    subst h
    refine ⟨fetch_history_map_sublist rows, ?_, ?_, ?_⟩
    · intro h; subst h; rfl
    · intro hpw
      have h2 := List.Pairwise.sublist (fetch_history_map_sublist rows) hpw
      rw [List.pairwise_map] at h2
      exact h2
    · intro b hb
      obtain ⟨r, hrmem, hfr⟩ := List.mem_filterMap.mp hb
      rcases hc : r.close with _ | c
      · rw [hc] at hfr; cases hfr
      · rw [hc] at hfr
        have hfr2 : Bar.mk r.date c = b := Option.some.inj hfr
        refine ⟨r, hrmem, ?_, ?_⟩
        · rw [← hfr2]
        · rw [← hfr2, hc]

theorem minPeriods_le_window {W : Nat} (hW : 20 ≤ W) : minPeriods W ≤ W := by
  unfold minPeriods
  omega

theorem minPeriods_pos (W : Nat) : 0 < minPeriods W := by
  unfold minPeriods
  omega

/-- C2 (corrected): the per-date length/absence contract holds for both
band calculators on close-bearing input — output aligned one-to-one with
the input, bands absent exactly while the trailing sample count is below
max(20, W//4) — and src/app.py compute_snr yields a same-length all-absent
band on empty or close-less input; but src/data_updater.py compute_snr
returns None (no table at all) in that case rather than an all-absent band of
the input's length. -/
theorem claim_C2 (d : CloseData) (W : Nat) (hW : 20 ≤ W) :
    (∃ out, App.compute_snr d W = .ok out ∧ out.length = d.nRows ∧
      ∀ i, i < out.length →
        (((out.getD i ⟨none, none, none⟩).support = none ↔ sampleCount d W i < minPeriods W) ∧
         ((out.getD i ⟨none, none, none⟩).median = none ↔ sampleCount d W i < minPeriods W) ∧
         ((out.getD i ⟨none, none, none⟩).resistance = none ↔ sampleCount d W i < minPeriods W))) ∧
    (∀ n, d = .noClose n → App.compute_snr d W = .ok (List.replicate n ⟨none, none, none⟩)) ∧
    (d = .withClose [] → App.compute_snr d W = .ok []) ∧
    (∀ rows, d = .withClose rows → rows ≠ [] →
      ∃ out, Updater.compute_snr d W = .ok (some out) ∧ out.length = rows.length ∧
        ∀ i, i < out.length →
          (((out.getD i ⟨0, 0, none, none, none⟩).S = none ↔ sampleCount d W i < minPeriods W) ∧
           ((out.getD i ⟨0, 0, none, none, none⟩).N = none ↔ sampleCount d W i < minPeriods W) ∧
           ((out.getD i ⟨0, 0, none, none, none⟩).R = none ↔ sampleCount d W i < minPeriods W))) ∧
    (∀ n, d = .noClose n → Updater.compute_snr d W = .ok none) ∧
    (d = .withClose [] → Updater.compute_snr d W = .ok none) := by
  have hnlt : ¬ W < minPeriods W := by
    have := minPeriods_le_window hW
    omega
  refine ⟨?_, ?_, ?_, ?_, ?_, ?_⟩
  · -- app variant: length and absence contract
    match d with
    | .noClose n =>
      refine ⟨List.replicate n ⟨none, none, none⟩, rfl, by simp [CloseData.nRows], ?_⟩
      intro i hi
      rw [List.length_replicate] at hi
      rw [List.getD_eq_getElem _ _ (by simpa using hi), List.getElem_replicate]
      have hcount : sampleCount (.noClose n) W i = 0 := rfl
      have hpos := minPeriods_pos W
      refine ⟨?_, ?_, ?_⟩ <;> simp [hcount] <;> omega
    | .withClose rows =>
      by_cases hrows : rows.isEmpty
      · refine ⟨List.replicate rows.length ⟨none, none, none⟩, by simp [App.compute_snr, hrows], ?_, ?_⟩
        · simp [CloseData.nRows]
        · intro i hi
          rw [List.length_replicate] at hi
          have : rows.length = 0 := by simpa [List.isEmpty_iff_length_eq_zero] using hrows
          omega
      · refine ⟨(List.range rows.length).map (fun i =>
          ⟨(rollingQuantile (rows.map (·.close)) W (minPeriods W) (1/5)).getD i none,
           (rollingQuantile (rows.map (·.close)) W (minPeriods W) (1/2)).getD i none,
           (rollingQuantile (rows.map (·.close)) W (minPeriods W) (4/5)).getD i none⟩),
          by simp [App.compute_snr, hrows, hnlt], by simp [CloseData.nRows], ?_⟩
        intro i hi
        simp only [List.length_map, List.length_range] at hi
        have hic : i < (rows.map (·.close)).length := by simpa using hi
        rw [getD_range_map _ hi]
        have hcount : sampleCount (.withClose rows) W i = min (i + 1) W := rfl
        refine ⟨?_, ?_, ?_⟩ <;>
          simpa [hcount] using rollingQuantile_getD_none_iff hic
  · intro n hd; subst hd; rfl
  · intro hd; subst hd; rfl
  · intro rows hd hne
    subst hd
    have hrows : ¬ rows.isEmpty := by simpa [List.isEmpty_iff] using hne
    refine ⟨(List.range rows.length).map (fun i =>
        ⟨(rows.getD i ⟨0, 0⟩).date, (rows.getD i ⟨0, 0⟩).close,
         (rollingQuantile (rows.map (·.close)) W (minPeriods W) (1/5)).getD i none,
         (rollingQuantile (rows.map (·.close)) W (minPeriods W) (1/2)).getD i none,
         (rollingQuantile (rows.map (·.close)) W (minPeriods W) (4/5)).getD i none⟩),
      by simp [Updater.compute_snr, hrows, hnlt], by simp, ?_⟩
    intro i hi
    simp only [List.length_map, List.length_range] at hi
    have hic : i < (rows.map (·.close)).length := by simpa using hi
    rw [getD_range_map _ hi]
    have hcount : sampleCount (.withClose rows) W i = min (i + 1) W := rfl
    refine ⟨?_, ?_, ?_⟩ <;>
      simpa [hcount] using rollingQuantile_getD_none_iff hic
  · intro n hd; subst hd; rfl
  · intro hd; subst hd; rfl

/-- C2 counterexample: a one-row frame without a Close column makes the
data_updater band calculator return None — there is no all-absent band of
the input's length. -/
theorem claim_C2_counterexample :
    Updater.compute_snr (.noClose 1) 120 = .ok none ∧
    ¬ ∃ out, Updater.compute_snr (.noClose 1) 120 = .ok (some out) ∧ out.length = 1 := by
  refine ⟨rfl, ?_⟩
  rintro ⟨out, h, _⟩
  rw [show Updater.compute_snr (.noClose 1) 120 = Except.ok none from rfl] at h
  cases Except.ok.inj h

/-- C2 witness: the app band calculator on twenty constant closes with
W = 20 (so min_periods = 20). -/
theorem claim_C2_witness :
    ∃ out, App.compute_snr (.withClose ((List.range 20).map (fun j => ⟨j, 1⟩))) 20 = .ok out ∧
      out.length = (CloseData.withClose ((List.range 20).map (fun j => ⟨j, 1⟩))).nRows ∧
      ∀ i, i < out.length →
        (((out.getD i ⟨none, none, none⟩).support = none ↔
            sampleCount (.withClose ((List.range 20).map (fun j => ⟨j, 1⟩))) 20 i < minPeriods 20) ∧
         ((out.getD i ⟨none, none, none⟩).median = none ↔
            sampleCount (.withClose ((List.range 20).map (fun j => ⟨j, 1⟩))) 20 i < minPeriods 20) ∧
         ((out.getD i ⟨none, none, none⟩).resistance = none ↔
            sampleCount (.withClose ((List.range 20).map (fun j => ⟨j, 1⟩))) 20 i < minPeriods 20)) :=
  (claim_C2 (.withClose ((List.range 20).map (fun j => ⟨j, 1⟩))) 20 (by norm_num)).1

/-- C9 (confirmed): wherever all three band values are present — in either
band-calculator variant — they are ordered support ≤ median ≤ resistance,
because the 20th, 50th and 80th linear-interpolation percentiles of one
sorted trailing window are monotone in the percentile level. -/
theorem claim_C9 (d : CloseData) (W : Nat) :
    (∀ out, App.compute_snr d W = .ok out →
      ∀ bc ∈ out, ∀ s n r, bc.support = some s → bc.median = some n → bc.resistance = some r →
        s ≤ n ∧ n ≤ r) ∧
    (∀ out, Updater.compute_snr d W = .ok (some out) →
      ∀ row ∈ out, ∀ s n r, row.S = some s → row.N = some n → row.R = some r →
        s ≤ n ∧ n ≤ r) := by
  have key : ∀ (closes : List ℚ) (i : Nat), i < closes.length →
      ∀ s n r, (rollingQuantile closes W (minPeriods W) (1/5)).getD i none = some s →
        (rollingQuantile closes W (minPeriods W) (1/2)).getD i none = some n →
        (rollingQuantile closes W (minPeriods W) (4/5)).getD i none = some r →
        s ≤ n ∧ n ≤ r := by
    intro closes i hi s n r hs hn hr
    rw [rollingQuantile_getD hi] at hs hn hr
    by_cases hc : (trailingWindow closes W i).length < minPeriods W
    · rw [if_pos hc] at hs; cases hs
    · rw [if_neg hc] at hs hn hr
      have hs2 := Option.some.inj hs
      have hn2 := Option.some.inj hn
      have hr2 := Option.some.inj hr
      have hsorted : List.Sorted (· ≤ ·) (List.insertionSort (· ≤ ·) (trailingWindow closes W i)) :=
        List.sorted_insertionSort (· ≤ ·) (trailingWindow closes W i)
      have hlen : (List.insertionSort (· ≤ ·) (trailingWindow closes W i)).length =
          (trailingWindow closes W i).length :=
        (List.perm_insertionSort (· ≤ ·) (trailingWindow closes W i)).length_eq
      have hne : List.insertionSort (· ≤ ·) (trailingWindow closes W i) ≠ [] := by
        have hpos := minPeriods_pos W
        have : 0 < (List.insertionSort (· ≤ ·) (trailingWindow closes W i)).length := by omega
        exact List.ne_nil_of_length_pos this
      constructor
      · rw [← hs2, ← hn2]
        exact quantileLinear_mono hsorted hne (by norm_num) (by norm_num) (by norm_num)
      · rw [← hn2, ← hr2]
        exact quantileLinear_mono hsorted hne (by norm_num) (by norm_num) (by norm_num)
  constructor
  · intro out hout bc hbc s n r hs hn hr
    match d with
    | .noClose m =>
      have : out = List.replicate m ⟨none, none, none⟩ := by
        rw [show App.compute_snr (.noClose m) W =
          Except.ok (List.replicate m ⟨none, none, none⟩) from rfl] at hout
        exact (Except.ok.inj hout).symm
      subst this
      have := List.eq_of_mem_replicate hbc
      rw [this] at hs
      cases hs
    | .withClose rows =>
      by_cases hrows : rows.isEmpty
      · have hr0 : rows = [] := List.isEmpty_iff.mp hrows
        subst hr0
        have : out = List.replicate 0 ⟨none, none, none⟩ := by
          simpa [App.compute_snr] using hout.symm
        subst this
        cases hbc
      · by_cases hnlt : W < minPeriods W
        · have : App.compute_snr (.withClose rows) W = .error ("min_periods must be <= window") := by
            simp [App.compute_snr, hrows, hnlt]
          rw [this] at hout
          cases hout
        · have hform : App.compute_snr (.withClose rows) W = .ok ((List.range rows.length).map (fun i =>
              ⟨(rollingQuantile (rows.map (·.close)) W (minPeriods W) (1/5)).getD i none,
               (rollingQuantile (rows.map (·.close)) W (minPeriods W) (1/2)).getD i none,
               (rollingQuantile (rows.map (·.close)) W (minPeriods W) (4/5)).getD i none⟩)) := by
            simp [App.compute_snr, hrows, hnlt]
          rw [hform] at hout
          have hout2 := Except.ok.inj hout
          subst hout2
          obtain ⟨i, hirange, hbceq⟩ := List.mem_map.mp hbc
          have hi : i < (rows.map (·.close)).length := by
            simpa using List.mem_range.mp hirange
          rw [← hbceq] at hs hn hr
          exact key (rows.map (·.close)) i hi s n r hs hn hr
  · intro out hout row hrow s n r hs hn hr
    match d with
    | .noClose m =>
      rw [show Updater.compute_snr (.noClose m) W = Except.ok none from rfl] at hout
      cases Except.ok.inj hout
    | .withClose rows =>
      by_cases hrows : rows.isEmpty
      · have : Updater.compute_snr (.withClose rows) W = .ok none := by
          simp [Updater.compute_snr, hrows]
        rw [this] at hout
        cases Except.ok.inj hout
      · by_cases hnlt : W < minPeriods W
        · have : Updater.compute_snr (.withClose rows) W = .error ("min_periods must be <= window") := by
            simp [Updater.compute_snr, hrows, hnlt]
          rw [this] at hout
          cases hout
        · have hform : Updater.compute_snr (.withClose rows) W = .ok (some ((List.range rows.length).map (fun i =>
              ⟨(rows.getD i ⟨0, 0⟩).date, (rows.getD i ⟨0, 0⟩).close,
               (rollingQuantile (rows.map (·.close)) W (minPeriods W) (1/5)).getD i none,
               (rollingQuantile (rows.map (·.close)) W (minPeriods W) (1/2)).getD i none,
               (rollingQuantile (rows.map (·.close)) W (minPeriods W) (4/5)).getD i none⟩))) := by
            simp [Updater.compute_snr, hrows, hnlt]
          rw [hform] at hout
          have hout2 := Option.some.inj (Except.ok.inj hout)
          subst hout2
          obtain ⟨i, hirange, hroweq⟩ := List.mem_map.mp hrow
          have hi : i < (rows.map (·.close)).length := by
            simpa using List.mem_range.mp hirange
          rw [← hroweq] at hs hn hr
          exact key (rows.map (·.close)) i hi s n r hs hn hr

theorem pairwise_getLast {α : Type} {R : α → α → Prop} :
    ∀ {l : List α}, List.Pairwise R l → ∀ (hne : l ≠ []) (x : α), x ∈ l →
      x = l.getLast hne ∨ R x (l.getLast hne) := by
  intro l
  induction l with
  | nil => intro _ hne; exact absurd rfl hne
  | cons a t ih =>
    intro hp hne x hx
    cases t with
    | nil =>
      left
      have hxa : x = a := List.mem_singleton.mp hx
      rw [hxa]
      rfl
    | cons b t2 =>
      have hgl : (a :: b :: t2).getLast hne = (b :: t2).getLast (by simp) :=
        List.getLast_cons (by simp)
      rcases List.mem_cons.mp hx with h | h
      · subst h
        right
        rw [hgl]
        exact (List.pairwise_cons.mp hp).1 _ (List.getLast_mem _)
      · rw [hgl]
        exact ih (List.pairwise_cons.mp hp).2 (by simp) x h

theorem mergeSort_getLast?_eq_none_iff {γ : Type} (l : List γ) (cmp : γ → γ → Bool) :
    (l.mergeSort cmp).getLast? = none ↔ l = [] := by
  rw [List.getLast?_eq_none_iff]
  constructor
  · intro h
    have hperm : List.Perm ([] : List γ) l := h ▸ List.mergeSort_perm l cmp
    exact (List.Perm.eq_nil hperm.symm)
  · intro h
    subst h
    exact List.Perm.eq_nil (List.mergeSort_perm [] cmp)

theorem mergeSort_getLast_max {α : Type} (l : List (String × α)) (hne : l ≠ []) :
    ∃ p, (l.mergeSort (fun a b => decide (a.1 ≤ b.1))).getLast? = some p ∧ p ∈ l ∧
      ∀ q ∈ l, q.1 ≤ p.1 := by
  have hperm := List.mergeSort_perm l (fun a b => decide (a.1 ≤ b.1))
  have hmne : l.mergeSort (fun a b => decide (a.1 ≤ b.1)) ≠ [] := by
    intro h
    exact hne (List.Perm.eq_nil (h ▸ hperm).symm)
  have hpw : List.Pairwise (fun a b : String × α => (decide (a.1 ≤ b.1)) = true)
      (l.mergeSort (fun a b => decide (a.1 ≤ b.1))) :=
    List.sorted_mergeSort
      (by intro a b c h1 h2; simp only [decide_eq_true_eq] at h1 h2 ⊢; exact le_trans h1 h2)
      (by intro a b; simpa using le_total a.1 b.1) l
  refine ⟨(l.mergeSort (fun a b => decide (a.1 ≤ b.1))).getLast hmne,
    List.getLast?_eq_getLast _ hmne, ?_, ?_⟩
  · exact hperm.mem_iff.mp (List.getLast_mem hmne)
  · intro q hq
    have hqm : q ∈ l.mergeSort (fun a b => decide (a.1 ≤ b.1)) := hperm.mem_iff.mpr hq
    rcases pairwise_getLast hpw hmne q hqm with h | h
    · rw [h]
    · exact of_decide_eq_true h

/-- C1 (corrected): with no prior snapshot pair the fallback ends the cycle
with no output; with one it reuses the lexicographically-latest dated
fundamentals and snr CSVs, re-stamping every row's asOfDate with the date
parsed from the snr file's NAME — i.e. the prior snapshot's own date, not
today's — so the run is wholly independent of today's date and the rows
are the prior snapshot's rows with only the asOfDate column rewritten. -/
theorem claim_C1 {α β : Type} (prev_f : List (String × List (α × String)))
    (prev_s : List (String × List (β × String))) (today : String) :
    (use_previous_as_fallback prev_f prev_s today = none ↔ (prev_f = [] ∨ prev_s = [])) ∧
    (∀ r, use_previous_as_fallback prev_f prev_s today = some r →
      (∃ sp, sp ∈ prev_s ∧ (∀ q ∈ prev_s, q.1 ≤ sp.1) ∧
        r.asOfDate = parseFileDate sp.1 ∧
        r.snr_summary = sp.2.map (fun p => (p.1, parseFileDate sp.1))) ∧
      (∃ fp, fp ∈ prev_f ∧ (∀ q ∈ prev_f, q.1 ≤ fp.1) ∧
        r.fundamentals = fp.2.map (fun p => (p.1, r.asOfDate)))) ∧
    use_previous_as_fallback prev_f prev_s today = use_previous_as_fallback prev_f prev_s "" := by
  refine ⟨?_, ?_, rfl⟩
  · constructor
    · intro h
      simp only [use_previous_as_fallback] at h
      rcases hf : (prev_f.mergeSort (fun a b => decide (a.1 ≤ b.1))).getLast? with _ | f
      · exact Or.inl ((mergeSort_getLast?_eq_none_iff prev_f _).mp hf)
      rcases hs : (prev_s.mergeSort (fun a b => decide (a.1 ≤ b.1))).getLast? with _ | s
      · exact Or.inr ((mergeSort_getLast?_eq_none_iff prev_s _).mp hs)
      rw [hf, hs] at h
      cases h
    · intro h
      simp only [use_previous_as_fallback]
      rcases h with h | h
      · subst h
        rw [(mergeSort_getLast?_eq_none_iff ([] : List (String × List (α × String))) _).mpr rfl]
      · subst h
        rw [(mergeSort_getLast?_eq_none_iff ([] : List (String × List (β × String))) _).mpr rfl]
        rcases hx : (prev_f.mergeSort (fun a b => decide (a.1 ≤ b.1))).getLast? with _ | f <;>
          rfl
  · intro r h
    simp only [use_previous_as_fallback] at h
    rcases hf : (prev_f.mergeSort (fun a b => decide (a.1 ≤ b.1))).getLast? with _ | f
    · rw [hf] at h; cases h
    rcases hs : (prev_s.mergeSort (fun a b => decide (a.1 ≤ b.1))).getLast? with _ | s
    · rw [hf, hs] at h; cases h
    rw [hf, hs] at h
    have hr := (Option.some.inj h).symm
    have hfne : prev_f ≠ [] := by
      intro h0
      rw [h0, (mergeSort_getLast?_eq_none_iff ([] : List (String × List (α × String))) _).mpr rfl] at hf
      cases hf
    have hsne : prev_s ≠ [] := by
      intro h0
      rw [h0, (mergeSort_getLast?_eq_none_iff ([] : List (String × List (β × String))) _).mpr rfl] at hs
      cases hs
    obtain ⟨pf, hpfl, hpfm, hpfmax⟩ := mergeSort_getLast_max prev_f hfne
    obtain ⟨ps, hpsl, hpsm, hpsmax⟩ := mergeSort_getLast_max prev_s hsne
    have hfeq : f = pf := Option.some.inj (hf ▸ hpfl)
    have hseq : s = ps := Option.some.inj (hs ▸ hpsl)
    subst hfeq; subst hseq
    constructor
    · exact ⟨s, hpsm, hpsmax, by rw [hr], by rw [hr]⟩
    · refine ⟨f, hpfm, hpfmax, ?_⟩
      rw [hr]

/-- C1 counterexample: with a prior snapshot dated 2024-01-05 and today =
2024-01-08, the fallback stamps 2024-01-05 (the prior snapshot's own
date), not today's date as the claim asserts. -/
theorem claim_C1_counterexample :
    ((use_previous_as_fallback
        [("data/fundamentals_2024-01-05.csv", [((), "2024-01-05")])]
        [("data/snr_summary_2024-01-05.csv", [((), "2024-01-05")])]
        "2024-01-08").map (fun r => r.asOfDate)) = some "2024-01-05" ∧
    ((use_previous_as_fallback
        [("data/fundamentals_2024-01-05.csv", [((), "2024-01-05")])]
        [("data/snr_summary_2024-01-05.csv", [((), "2024-01-05")])]
        "2024-01-08").map (fun r => r.asOfDate)) ≠ some "2024-01-08" := by
  with_unfolding_all decide

theorem length_filter_lt_add_eq_le (vals : List ℚ) {v w : ℚ} (hvw : v < w) :
    (vals.filter (fun x => decide (x < v))).length +
      (vals.filter (fun x => decide (x = v))).length ≤
      (vals.filter (fun x => decide (x < w))).length := by
  induction vals with
  | nil => simp
  | cons x xs ih =>
    by_cases h1 : x < v
    · have h2 : ¬ x = v := ne_of_lt h1
      have h3 : x < w := lt_trans h1 hvw
      simp [List.filter_cons, h1, h2, h3]
      omega
    · by_cases h2 : x = v
      · simp [List.filter_cons, h1, h2, hvw]
        omega
      · by_cases h3 : x < w <;> simp [List.filter_cons, h1, h2, h3] <;> omega

theorem length_filter_gt_add_eq_le (vals : List ℚ) {v w : ℚ} (hvw : v < w) :
    (vals.filter (fun x => decide (w < x))).length +
      (vals.filter (fun x => decide (x = w))).length ≤
      (vals.filter (fun x => decide (v < x))).length := by
  induction vals with
  | nil => simp
  | cons x xs ih =>
    by_cases h1 : w < x
    · have h2 : ¬ x = w := ne_of_gt h1
      have h3 : v < x := lt_trans hvw h1
      simp [List.filter_cons, h1, h2, h3]
      omega
    · by_cases h2 : x = w
      · simp [List.filter_cons, h1, h2, hvw]
        omega
      · by_cases h3 : v < x <;> simp [List.filter_cons, h1, h2, h3] <;> omega

theorem one_le_length_filter_eq {vals : List ℚ} {v : ℚ} (hv : v ∈ vals) :
    1 ≤ (vals.filter (fun x => decide (x = v))).length := by
  have hmem : v ∈ vals.filter (fun x => decide (x = v)) :=
    List.mem_filter.mpr ⟨hv, by simp⟩
  have := List.length_pos.mpr (List.ne_nil_of_mem hmem)
  omega

theorem avgRank_true_eq (vals : List ℚ) (v : ℚ) :
    avgRank vals true v = ((vals.filter (fun x => decide (x < v))).length : ℚ) +
      (((vals.filter (fun x => decide (x = v))).length : ℚ) + 1) / 2 := rfl

theorem avgRank_false_eq (vals : List ℚ) (v : ℚ) :
    avgRank vals false v = ((vals.filter (fun x => decide (v < x))).length : ℚ) +
      (((vals.filter (fun x => decide (x = v))).length : ℚ) + 1) / 2 := rfl

theorem avgRank_lt_asc {vals : List ℚ} {v w : ℚ} (hv : v ∈ vals) (hw : w ∈ vals)
    (hvw : v < w) : avgRank vals true v < avgRank vals true w := by
  rw [avgRank_true_eq, avgRank_true_eq]
  have hA : ((vals.filter (fun x => decide (x < v))).length : ℚ) +
      ((vals.filter (fun x => decide (x = v))).length : ℚ) ≤
      ((vals.filter (fun x => decide (x < w))).length : ℚ) := by
    exact_mod_cast length_filter_lt_add_eq_le vals hvw
  have hB : (1 : ℚ) ≤ ((vals.filter (fun x => decide (x = v))).length : ℚ) := by
    exact_mod_cast one_le_length_filter_eq hv
  have hD : (1 : ℚ) ≤ ((vals.filter (fun x => decide (x = w))).length : ℚ) := by
    exact_mod_cast one_le_length_filter_eq hw
  linarith

theorem avgRank_lt_desc {vals : List ℚ} {v w : ℚ} (hv : v ∈ vals) (hw : w ∈ vals)
    (hvw : v < w) : avgRank vals false w < avgRank vals false v := by
  rw [avgRank_false_eq, avgRank_false_eq]
  have hA : ((vals.filter (fun x => decide (w < x))).length : ℚ) +
      ((vals.filter (fun x => decide (x = w))).length : ℚ) ≤
      ((vals.filter (fun x => decide (v < x))).length : ℚ) := by
    exact_mod_cast length_filter_gt_add_eq_le vals hvw
  have hB : (1 : ℚ) ≤ ((vals.filter (fun x => decide (x = w))).length : ℚ) := by
    exact_mod_cast one_le_length_filter_eq hw
  have hD : (1 : ℚ) ≤ ((vals.filter (fun x => decide (x = v))).length : ℚ) := by
    exact_mod_cast one_le_length_filter_eq hv
  linarith

theorem avgRank_le_asc {vals : List ℚ} {v w : ℚ} (hv : v ∈ vals) (hw : w ∈ vals)
    (hvw : v ≤ w) : avgRank vals true v ≤ avgRank vals true w := by
  rcases eq_or_lt_of_le hvw with h | h
  · rw [h]
  · exact (avgRank_lt_asc hv hw h).le

theorem avgRank_le_desc {vals : List ℚ} {v w : ℚ} (hv : v ∈ vals) (hw : w ∈ vals)
    (hvw : v ≤ w) : avgRank vals false w ≤ avgRank vals false v := by
  rcases eq_or_lt_of_le hvw with h | h
  · rw [h]
  · exact (avgRank_lt_desc hv hw h).le

theorem rankSeries_filterMap (s : List (Option ℚ)) (asc : Bool) :
    (rankSeries s asc).filterMap id = (s.filterMap id).map (avgRank (s.filterMap id) asc) := by
  unfold rankSeries
  rw [List.filterMap_map, List.map_filterMap]
  rfl

theorem rankSeries_getElem? (s : List (Option ℚ)) (asc : Bool) (i : Nat) :
    (rankSeries s asc)[i]? = (s[i]?).map (Option.map (avgRank (s.filterMap id) asc)) := by
  unfold rankSeries
  rw [List.getElem?_map]

theorem rankSeries_all_isNone_iff (s : List (Option ℚ)) (asc : Bool) :
    ((rankSeries s asc).all (·.isNone) = true) ↔ s.filterMap id = [] := by
  unfold rankSeries
  rw [List.all_map]
  constructor
  · intro h
    rw [List.filterMap_eq_nil_iff]
    intro a ha
    have h2 := List.all_eq_true.mp h a ha
    simp only [Function.comp] at h2
    cases a with
    | none => rfl
    | some x => simp at h2
  · intro h
    rw [List.all_eq_true]
    intro a ha
    have h2 : id a = none := (List.filterMap_eq_nil_iff.mp h) a ha
    cases a with
    | none => simp
    | some x => cases h2

theorem rank_spread {s : List (Option ℚ)} (asc : Bool) {a b : ℚ}
    (ha : a ∈ s.filterMap id) (hb : b ∈ s.filterMap id) (hab : a ≠ b) :
    listMin ((rankSeries s asc).filterMap id) < listMax ((rankSeries s asc).filterMap id) := by
  rw [rankSeries_filterMap]
  have key : ∀ x y : ℚ, x ∈ (s.filterMap id).map (avgRank (s.filterMap id) asc) →
      y ∈ (s.filterMap id).map (avgRank (s.filterMap id) asc) → x < y →
      listMin ((s.filterMap id).map (avgRank (s.filterMap id) asc)) <
        listMax ((s.filterMap id).map (avgRank (s.filterMap id) asc)) := by
    intro x y hx hy hxy
    calc listMin ((s.filterMap id).map (avgRank (s.filterMap id) asc)) ≤ x := listMin_le hx
    _ < y := hxy
    _ ≤ listMax ((s.filterMap id).map (avgRank (s.filterMap id) asc)) := le_listMax hy
  rcases lt_or_gt_of_ne hab with hlt | hgt
  · cases asc with
    | true =>
      exact key _ _ (List.mem_map_of_mem _ ha) (List.mem_map_of_mem _ hb)
        (avgRank_lt_asc ha hb hlt)
    | false =>
      exact key _ _ (List.mem_map_of_mem _ hb) (List.mem_map_of_mem _ ha)
        (avgRank_lt_desc ha hb hlt)
  · cases asc with
    | true =>
      exact key _ _ (List.mem_map_of_mem _ hb) (List.mem_map_of_mem _ ha)
        (avgRank_lt_asc hb ha hgt)
    | false =>
      exact key _ _ (List.mem_map_of_mem _ ha) (List.mem_map_of_mem _ hb)
        (avgRank_lt_desc hb ha hgt)

theorem rank_eq_rescale {s : List (Option ℚ)} {asc : Bool}
    (hspread : listMin ((rankSeries s asc).filterMap id) <
      listMax ((rankSeries s asc).filterMap id)) :
    rank s asc = (rankSeries s asc).map (Option.map (fun x =>
      (listMax ((rankSeries s asc).filterMap id) - x) /
      (listMax ((rankSeries s asc).filterMap id) - listMin ((rankSeries s asc).filterMap id)))) := by
  simp only [rank]
  have hne : ¬ (rankSeries s asc).all (·.isNone) = true := by
    intro hall
    have hnil := (rankSeries_all_isNone_iff s asc).mp hall
    rw [rankSeries_filterMap, hnil] at hspread
    simp [listMin, listMax] at hspread
  rw [if_neg hne, if_neg (ne_of_gt hspread)]

theorem map_const_replicate {α β : Type} (l : List α) (b : β) :
    l.map (fun _ => b) = List.replicate l.length b := by
  induction l <;> simp_all [List.replicate_succ]

theorem rank_eq_flat {s : List (Option ℚ)} {asc : Bool}
    (hpres : s.filterMap id ≠ [])
    (hconst : ∀ x ∈ s.filterMap id, ∀ y ∈ s.filterMap id, x = y) :
    rank s asc = List.replicate s.length (some (1/2)) := by
  simp only [rank]
  have hne : ¬ (rankSeries s asc).all (·.isNone) = true := by
    intro hall
    exact hpres ((rankSeries_all_isNone_iff s asc).mp hall)
  rw [if_neg hne]
  have heq : listMax ((rankSeries s asc).filterMap id) =
      listMin ((rankSeries s asc).filterMap id) := by
    rw [rankSeries_filterMap]
    have hrvne2 : (s.filterMap id).map (avgRank (s.filterMap id) asc) ≠ [] := by
      simpa using hpres
    have hmin := listMin_mem hrvne2
    have hmax := listMax_mem hrvne2
    obtain ⟨x, hx, hxe⟩ := List.mem_map.mp hmin
    obtain ⟨y, hy, hye⟩ := List.mem_map.mp hmax
    have hxy : x = y := hconst x hx y hy
    rw [← hxe, ← hye, hxy]
  rw [if_pos heq]
  exact map_const_replicate s (some (1/2))

theorem rank_all_none {s : List (Option ℚ)} {asc : Bool} (h : s.filterMap id = []) :
    rank s asc = s.map (fun _ => none) := by
  simp only [rank]
  rw [if_pos ((rankSeries_all_isNone_iff s asc).mpr h)]

/-- C3 (corrected): percentile ranking uses average tie-handling with
absent values excluded from the ranked set, rescales linearly into [0,1]
with 1 = best in the field's direction, and degenerates to a flat 0.5 when
rmax = rmin; BUT in that degenerate case (all present values tied, or a
single value) the source emits 0.5 at every position including the absent
ones, so absent inputs stay absent only while two distinct present values
exist. -/
theorem claim_C3 (s : List (Option ℚ)) (asc : Bool) :
    ((∃ a ∈ s.filterMap id, ∃ b ∈ s.filterMap id, a ≠ b) →
      ∀ i : Nat, s[i]? = some none → (rank s asc)[i]? = some none) ∧
    ((s.filterMap id ≠ [] ∧ ∀ x ∈ s.filterMap id, ∀ y ∈ s.filterMap id, x = y) →
      rank s asc = List.replicate s.length (some (1/2))) ∧
    (∀ (i : Nat) (v : ℚ), (rank s asc)[i]? = some (some v) → 0 ≤ v ∧ v ≤ 1) ∧
    (asc = true → ∀ (i : Nat) (v : ℚ), s[i]? = some (some v) → (∀ w ∈ s.filterMap id, v ≤ w) →
      (∃ a ∈ s.filterMap id, ∃ b ∈ s.filterMap id, a ≠ b) →
      (rank s asc)[i]? = some (some (1 : ℚ))) ∧
    (asc = false → ∀ (i : Nat) (v : ℚ), s[i]? = some (some v) → (∀ w ∈ s.filterMap id, w ≤ v) →
      (∃ a ∈ s.filterMap id, ∃ b ∈ s.filterMap id, a ≠ b) →
      (rank s asc)[i]? = some (some (1 : ℚ))) := by
  have hbest : ∀ (i : Nat) (v : ℚ), s[i]? = some (some v) →
      avgRank (s.filterMap id) asc v = listMin ((rankSeries s asc).filterMap id) →
      (∃ a ∈ s.filterMap id, ∃ b ∈ s.filterMap id, a ≠ b) →
      (rank s asc)[i]? = some (some (1 : ℚ)) := by
    intro i v hiv hminv hdist
    obtain ⟨a, ha, b, hb, hab⟩ := hdist
    have hspread := rank_spread (s := s) asc ha hb hab
    rw [rank_eq_rescale hspread, List.getElem?_map, rankSeries_getElem?, hiv]
    simp only [Option.map_some']
    have hsub : listMax ((rankSeries s asc).filterMap id) -
        listMin ((rankSeries s asc).filterMap id) ≠ 0 :=
      sub_ne_zero.mpr (ne_of_gt hspread)
    rw [hminv]
    congr 2
    exact div_self hsub
  refine ⟨?_, ?_, ?_, ?_, ?_⟩
  · intro hdist i hi
    obtain ⟨a, ha, b, hb, hab⟩ := hdist
    have hspread := rank_spread (s := s) asc ha hb hab
    rw [rank_eq_rescale hspread, List.getElem?_map, rankSeries_getElem?, hi]
    rfl
  · rintro ⟨hpres, hconst⟩
    exact rank_eq_flat hpres hconst
  · intro i v hv
    by_cases hnil : s.filterMap id = []
    · rw [rank_all_none hnil, List.getElem?_map] at hv
      rcases hsi : s[i]? with _ | o
      · rw [hsi] at hv; cases hv
      · rw [hsi] at hv
        simp only [Option.map_some'] at hv
        cases hv
    · by_cases hconst : ∀ x ∈ s.filterMap id, ∀ y ∈ s.filterMap id, x = y
      · rw [rank_eq_flat hnil hconst] at hv
        have h2 := List.getElem?_mem hv
        have h3 := List.eq_of_mem_replicate h2
        have h4 : v = 1/2 := Option.some.inj h3
        rw [h4]
        norm_num
      · push_neg at hconst
        obtain ⟨a, ha, b, hb, hab⟩ := hconst
        have hspread := rank_spread (s := s) asc ha hb hab
        rw [rank_eq_rescale hspread, List.getElem?_map] at hv
        rcases hsi : (rankSeries s asc)[i]? with _ | o
        · rw [hsi] at hv; cases hv
        · rw [hsi] at hv
          simp only [Option.map_some'] at hv
          have ho := Option.some.inj hv
          rcases o with _ | rx
          · cases ho
          · simp only [Option.map_some'] at ho
            have hval := Option.some.inj ho
            have hrx : rx ∈ (rankSeries s asc).filterMap id := by
              refine List.mem_filterMap.mpr ⟨some rx, ?_, rfl⟩
              exact List.getElem?_mem hsi
            have h1 : listMin ((rankSeries s asc).filterMap id) ≤ rx := listMin_le hrx
            have h2 : rx ≤ listMax ((rankSeries s asc).filterMap id) := le_listMax hrx
            rw [← hval]
            constructor
            · apply div_nonneg <;> linarith
            · rw [div_le_one (by linarith)]
              linarith
  · intro hasc i v hiv hmin hdist
    subst hasc
    have hv : v ∈ s.filterMap id := by
      refine List.mem_filterMap.mpr ⟨some v, ?_, rfl⟩
      exact List.getElem?_mem hiv
    refine hbest i v hiv ?_ hdist
    have hrvne : (rankSeries s true).filterMap id ≠ [] := by
      rw [rankSeries_filterMap]
      intro h0
      rw [List.map_eq_nil_iff] at h0
      exact (List.ne_nil_of_mem hv) h0
    apply le_antisymm
    · rw [rankSeries_filterMap] at hrvne ⊢
      have hminmem := listMin_mem hrvne
      obtain ⟨w, hw, hwe⟩ := List.mem_map.mp hminmem
      rw [← hwe]
      exact avgRank_le_asc hv hw (hmin w hw)
    · rw [rankSeries_filterMap]
      exact listMin_le (List.mem_map_of_mem _ hv)
  · intro hasc i v hiv hmax hdist
    subst hasc
    have hv : v ∈ s.filterMap id := by
      refine List.mem_filterMap.mpr ⟨some v, ?_, rfl⟩
      exact List.getElem?_mem hiv
    refine hbest i v hiv ?_ hdist
    have hrvne : (rankSeries s false).filterMap id ≠ [] := by
      rw [rankSeries_filterMap]
      intro h0
      rw [List.map_eq_nil_iff] at h0
      exact (List.ne_nil_of_mem hv) h0
    apply le_antisymm
    · rw [rankSeries_filterMap] at hrvne ⊢
      have hminmem := listMin_mem hrvne
      obtain ⟨w, hw, hwe⟩ := List.mem_map.mp hminmem
      rw [← hwe]
      exact avgRank_le_desc hw hv (hmax w hw)
    · rw [rankSeries_filterMap]
      exact listMin_le (List.mem_map_of_mem _ hv)

/-- C3 counterexample: over the universe [5, 5, absent] every present
value ties, so the source returns 0.5 everywhere — including position 2,
whose input is absent, contradicting "absent inputs remain absent". -/
theorem claim_C3_counterexample :
    rank [some 5, some 5, none] true = [some (1/2), some (1/2), some (1/2)] ∧
    (rank [some 5, some 5, none] true).getD 2 none ≠ none := by
  constructor
  · with_unfolding_all decide
  · with_unfolding_all decide

theorem meanOpt_eq_specUnweightedMean (xs : List (Option ℚ)) :
    meanOpt xs = specUnweightedMean xs := by
  simp only [meanOpt, specUnweightedMean, List.isEmpty_iff]

theorem weightedTotal_some (a b c : ℚ) :
    weightedTotal (some a) (some b) (some c) =
      some ((0.40 : ℚ) * a + (0.35 : ℚ) * b + (0.25 : ℚ) * c) := rfl

theorem weightedTotal_eq_none_iff (v q g : Option ℚ) :
    weightedTotal v q g = none ↔ (v = none ∨ q = none ∨ g = none) := by
  rcases v with _ | a <;> rcases q with _ | b <;> rcases g with _ | c <;>
    simp [weightedTotal]

/-- C4 (confirmed): each row's valuation/quality/growth sub-score is the
unweighted mean of its constituent direction-aware ranks with absent
inputs skipped (not zero-filled), and total_score = 0.40·valuation +
0.35·quality + 0.25·growth (propagating absence when a sub-score is
absent, as float NaN arithmetic does). -/
theorem claim_C4 (df : List FundRow) (i : Nat) (hi : i < df.length) :
    ∀ fr sc, (score_frame df)[i]? = some (fr, sc) →
      (sc.valuation_score = specUnweightedMean
        [(rank (df.map (·.trailingPE)) true).getD i none,
         (rank (df.map (·.priceToBook)) true).getD i none]) ∧
      (sc.quality_score = specUnweightedMean
        [(rank (df.map (·.returnOnEquity)) false).getD i none,
         (rank (df.map (·.grossMargins)) false).getD i none,
         (rank (df.map (·.operatingMargins)) false).getD i none]) ∧
      (sc.growth_score = specUnweightedMean
        [(rank (df.map (·.revenueGrowth)) false).getD i none,
         (rank (df.map (·.earningsGrowth)) false).getD i none]) ∧
      (∀ a, (rank (df.map (·.trailingPE)) true).getD i none = some a →
        (rank (df.map (·.priceToBook)) true).getD i none = none →
        sc.valuation_score = some a) ∧
      (∀ a b c, sc.valuation_score = some a → sc.quality_score = some b →
        sc.growth_score = some c →
        sc.total_score = some ((0.40 : ℚ) * a + (0.35 : ℚ) * b + (0.25 : ℚ) * c)) ∧
      (sc.total_score = none ↔
        (sc.valuation_score = none ∨ sc.quality_score = none ∨ sc.growth_score = none)) := by
  intro fr sc h
  have hform : (score_frame df)[i]? =
      some (df.getD i ⟨none, none, none, none, none, none, none⟩,
        ⟨meanOpt [(rank (df.map (·.trailingPE)) true).getD i none,
                  (rank (df.map (·.priceToBook)) true).getD i none],
         meanOpt [(rank (df.map (·.returnOnEquity)) false).getD i none,
                  (rank (df.map (·.grossMargins)) false).getD i none,
                  (rank (df.map (·.operatingMargins)) false).getD i none],
         meanOpt [(rank (df.map (·.revenueGrowth)) false).getD i none,
                  (rank (df.map (·.earningsGrowth)) false).getD i none],
         weightedTotal
           (meanOpt [(rank (df.map (·.trailingPE)) true).getD i none,
                  (rank (df.map (·.priceToBook)) true).getD i none])
           (meanOpt [(rank (df.map (·.returnOnEquity)) false).getD i none,
                  (rank (df.map (·.grossMargins)) false).getD i none,
                  (rank (df.map (·.operatingMargins)) false).getD i none])
           (meanOpt [(rank (df.map (·.revenueGrowth)) false).getD i none,
                  (rank (df.map (·.earningsGrowth)) false).getD i none])⟩) := by
    unfold score_frame
    rw [List.getElem?_map, List.getElem?_range hi]
    rfl
  rw [hform] at h
  have h2 := Option.some.inj h
  have hsc := (congrArg Prod.snd h2).symm
  subst hsc
  refine ⟨meanOpt_eq_specUnweightedMean _, meanOpt_eq_specUnweightedMean _,
    meanOpt_eq_specUnweightedMean _, ?_, ?_, ?_⟩
  · intro a hpe hpb
    show meanOpt [(rank (df.map (·.trailingPE)) true).getD i none,
                  (rank (df.map (·.priceToBook)) true).getD i none] = some a
    rw [hpe, hpb]
    simp [meanOpt]
  · intro a b c hv hq hg
    show weightedTotal
           (meanOpt [(rank (df.map (·.trailingPE)) true).getD i none,
                  (rank (df.map (·.priceToBook)) true).getD i none])
           (meanOpt [(rank (df.map (·.returnOnEquity)) false).getD i none,
                  (rank (df.map (·.grossMargins)) false).getD i none,
                  (rank (df.map (·.operatingMargins)) false).getD i none])
           (meanOpt [(rank (df.map (·.revenueGrowth)) false).getD i none,
                  (rank (df.map (·.earningsGrowth)) false).getD i none]) =
      some ((0.40 : ℚ) * a + (0.35 : ℚ) * b + (0.25 : ℚ) * c)
    rw [show meanOpt [(rank (df.map (·.trailingPE)) true).getD i none,
                  (rank (df.map (·.priceToBook)) true).getD i none] = some a from hv,
        show meanOpt [(rank (df.map (·.returnOnEquity)) false).getD i none,
                  (rank (df.map (·.grossMargins)) false).getD i none,
                  (rank (df.map (·.operatingMargins)) false).getD i none] = some b from hq,
        show meanOpt [(rank (df.map (·.revenueGrowth)) false).getD i none,
                  (rank (df.map (·.earningsGrowth)) false).getD i none] = some c from hg]
    exact weightedTotal_some a b c
  · exact weightedTotal_eq_none_iff _ _ _

/-- C4 witness: a one-row universe with P/E and ROE present exercises the
skipna mean (valuation = the single P/E rank, 0.5). -/
theorem claim_C4_witness :
    (ScoreCols.mk (some (1/2)) (some (1/2)) none none).valuation_score =
      specUnweightedMean
        [(rank ([FundRow.mk (some 10) none (some 1) none none none none].map (·.trailingPE)) true).getD 0 none,
         (rank ([FundRow.mk (some 10) none (some 1) none none none none].map (·.priceToBook)) true).getD 0 none] :=
  (claim_C4 [FundRow.mk (some 10) none (some 1) none none none none] 0 (by norm_num)
    (FundRow.mk (some 10) none (some 1) none none none none)
    (ScoreCols.mk (some (1/2)) (some (1/2)) none none)
    (by with_unfolding_all decide)).1

theorem mem_sector_performance {fund : List FundIndRow} {snr : List SnrRetRow}
    {θ : ℚ} {row : PerfRow} (h : row ∈ compute_sector_performance fund snr θ) :
    ∃ key ∈ groupKeys (sectorBase fund snr),
      row = perfRowFor (sectorBase fund snr)
        (_weighted_daily_return (basePairs (sectorBase fund snr))) θ key := by
  simp only [compute_sector_performance] at h
  by_cases hemp : fund.isEmpty || snr.isEmpty
  · rw [if_pos hemp] at h; cases h
  · rw [if_neg hemp] at h
    have hperm := List.mergeSort_perm ((groupKeys (sectorBase fund snr)).map
      (perfRowFor (sectorBase fund snr)
        (_weighted_daily_return (basePairs (sectorBase fund snr))) θ)) perfSortLE
    have hmem := hperm.mem_iff.mp h
    obtain ⟨key, hkey, heq⟩ := List.mem_map.mp hmem
    exact ⟨key, hkey, heq.symm⟩

/-- C10 (confirmed): rows with an absent daily return are dropped (and the
return table inner-joined) before any aggregation, so an industry whose
symbols all lack a daily return contributes no output row at all. -/
theorem claim_C10 (fund : List FundIndRow) (snr : List SnrRetRow) (I : String)
    (hI2 : I ≠ "未分類")
    (h : ∀ f ∈ fund, f.twse_industry = some I →
      ∀ s2 ∈ snr, s2.Ticker = f.Ticker → s2.DailyReturn = none) :
    (∀ row ∈ compute_sector_performance fund snr (3/1000),
      row.twse_industry ≠ some I) ∧
    ((compute_sector_performance fund snr (3/1000)).all
      (fun row => decide (row.twse_industry ≠ some I)) = true) := by
  have hmain : ∀ row ∈ compute_sector_performance fund snr (3/1000),
      row.twse_industry ≠ some I := by
    intro row hrow hcontra
    obtain ⟨key, hkey, heq⟩ := mem_sector_performance hrow
    have hkeyI : key = some I := by
      rw [heq] at hcontra
      simp only [perfRowFor] at hcontra
      rcases key with _ | s2
      · cases hcontra
      · have hcontra2 : (if s2 = "" then some ("未分類") else some s2) = some I := hcontra
        by_cases hs : s2 = ""
        · rw [if_pos hs] at hcontra2
          exact absurd (Option.some.inj hcontra2).symm hI2
        · rw [if_neg hs] at hcontra2
          exact hcontra2
    rw [hkeyI] at hkey
    have hmemkeys : some I ∈ (sectorBase fund snr).map (·.twse_industry) := by
      have hperm := List.mergeSort_perm
        (((sectorBase fund snr).map (·.twse_industry)).dedup) optStrLE
      have h1 : some I ∈ ((sectorBase fund snr).map (·.twse_industry)).dedup :=
        hperm.mem_iff.mp hkey
      exact List.mem_dedup.mp h1
    obtain ⟨b, hbmem, hbind⟩ := List.mem_map.mp hmemkeys
    simp only [sectorBase] at hbmem
    obtain ⟨f, hf, hb2⟩ := List.mem_flatMap.mp hbmem
    obtain ⟨su, hsu, hbeq⟩ := List.mem_map.mp hb2
    have hsu2 := List.mem_filter.mp hsu
    obtain ⟨s2, hs2, hfm⟩ := List.mem_filterMap.mp hsu2.1
    rcases hdr : s2.DailyReturn with _ | rv
    · rw [hdr] at hfm; cases hfm
    · rw [hdr] at hfm
      have hsu3 := Option.some.inj hfm
      have hfind : f.twse_industry = some I := by
        rw [← hbeq] at hbind
        exact hbind
      have hts : su.1 = f.Ticker := of_decide_eq_true hsu2.2
      have hs2t : s2.Ticker = f.Ticker := by
        rw [← hts, ← hsu3]
      have hnone := h f hf hfind s2 hs2 hs2t
      rw [hdr] at hnone
      cases hnone
  refine ⟨hmain, ?_⟩
  rw [List.all_eq_true]
  intro row hrow
  exact decide_eq_true (hmain row hrow)

/-- C10 witness: industry X's only symbol has an absent daily return, so
no output row carries industry X. -/
theorem claim_C10_witness :
    (compute_sector_performance
      [⟨"A", some ("X"), some 1⟩, ⟨"B", some ("Y"), some 1⟩]
      [⟨"A", none⟩, ⟨"B", some (1/100)⟩] (3/1000)).all
      (fun row => decide (row.twse_industry ≠ some ("X"))) = true :=
  (claim_C10 [⟨"A", some ("X"), some 1⟩, ⟨"B", some ("Y"), some 1⟩]
    [⟨"A", none⟩, ⟨"B", some (1/100)⟩] "X"
    (by decide)
    (by
      intro f hf hfI s2 hs2 hts
      fin_cases hf <;> fin_cases hs2 <;> simp_all)).2

/-- C5 (confirmed): _weighted_daily_return is exactly the spec's clipped,
absent-dropping cap-weighted mean (absent when the clipped weight sum is
zero); every output row carries the full-universe weighted mean as
market_ret and its group's weighted mean as industry_ret; and the relation
label is the ±0.003 trichotomy on industry_ret − market_ret, defaulting to
"in line" whenever the difference cannot be computed. -/
theorem claim_C5 (fund : List FundIndRow) (snr : List SnrRetRow) :
    (∀ pairs, _weighted_daily_return pairs = specWeightedMean pairs) ∧
    (∀ row ∈ compute_sector_performance fund snr (3/1000),
      row.market_ret = _weighted_daily_return (basePairs (sectorBase fund snr)) ∧
      (∃ key ∈ groupKeys (sectorBase fund snr),
        row.industry_ret = _weighted_daily_return (basePairs
          ((sectorBase fund snr).filter (fun b => decide (b.twse_industry = key)))) ∧
        row.n = ((sectorBase fund snr).filter (fun b => decide (b.twse_industry = key))).length) ∧
      (∀ a b, row.industry_ret = some a → row.market_ret = some b →
        row.diff = some (a - b) ∧
        ((3/1000 : ℚ) ≤ a - b → row.relation = "優於大盤") ∧
        (a - b ≤ -(3/1000 : ℚ) → row.relation = "劣於大盤") ∧
        (-(3/1000 : ℚ) < a - b → a - b < (3/1000 : ℚ) → row.relation = "相似")) ∧
      ((row.industry_ret = none ∨ row.market_ret = none) →
        row.diff = none ∧ row.relation = "相似")) := by
  constructor
  · intro pairs
    simp only [_weighted_daily_return, specWeightedMean]
    rcases hk : pairs.filterMap (fun p => p.1.bind (fun r => p.2.map (fun m => (r, m)))) with _ | ⟨p0, t⟩ <;>
      rw [hk] <;> simp
  · intro row hrow
    obtain ⟨key, hkey, heq⟩ := mem_sector_performance hrow
    subst heq
    refine ⟨rfl, ⟨key, hkey, rfl, rfl⟩, ?_, ?_⟩
    · intro a b ha hb
      have ha2 : _weighted_daily_return (basePairs
          ((sectorBase fund snr).filter (fun b => decide (b.twse_industry = key)))) = some a := ha
      have hb2 : _weighted_daily_return (basePairs (sectorBase fund snr)) = some b := hb
      have hdiff : (perfRowFor (sectorBase fund snr)
          (_weighted_daily_return (basePairs (sectorBase fund snr))) (3/1000) key).diff =
          some (a - b) := by
        show (match _weighted_daily_return (basePairs
            ((sectorBase fund snr).filter (fun b => decide (b.twse_industry = key)))),
            _weighted_daily_return (basePairs (sectorBase fund snr)) with
          | some x, some y => some (x - y)
          | _, _ => none) = some (a - b)
        rw [ha2, hb2]
      refine ⟨hdiff, ?_, ?_, ?_⟩
      · intro hc
        show relationOf (perfRowFor (sectorBase fund snr)
          (_weighted_daily_return (basePairs (sectorBase fund snr))) (3/1000) key).diff (3/1000) =
          "優於大盤"
        rw [hdiff]
        show (if (3/1000 : ℚ) ≤ a - b then "優於大盤"
          else if a - b ≤ -(3/1000 : ℚ) then "劣於大盤" else "相似") = "優於大盤"
        rw [if_pos hc]
      · intro hc
        show relationOf (perfRowFor (sectorBase fund snr)
          (_weighted_daily_return (basePairs (sectorBase fund snr))) (3/1000) key).diff (3/1000) =
          "劣於大盤"
        rw [hdiff]
        show (if (3/1000 : ℚ) ≤ a - b then "優於大盤"
          else if a - b ≤ -(3/1000 : ℚ) then "劣於大盤" else "相似") = "劣於大盤"
        rw [if_neg (by linarith), if_pos hc]
      · intro hc1 hc2
        show relationOf (perfRowFor (sectorBase fund snr)
          (_weighted_daily_return (basePairs (sectorBase fund snr))) (3/1000) key).diff (3/1000) =
          "相似"
        rw [hdiff]
        show (if (3/1000 : ℚ) ≤ a - b then "優於大盤"
          else if a - b ≤ -(3/1000 : ℚ) then "劣於大盤" else "相似") = "相似"
        rw [if_neg (by linarith), if_neg (by linarith)]
    · intro h
      have hdiffn : (perfRowFor (sectorBase fund snr)
          (_weighted_daily_return (basePairs (sectorBase fund snr))) (3/1000) key).diff = none := by
        show (match _weighted_daily_return (basePairs
            ((sectorBase fund snr).filter (fun b => decide (b.twse_industry = key)))),
            _weighted_daily_return (basePairs (sectorBase fund snr)) with
          | some x, some y => some (x - y)
          | _, _ => none) = none
        rcases h with h | h
        · have h2 : _weighted_daily_return (basePairs
            ((sectorBase fund snr).filter (fun b => decide (b.twse_industry = key)))) = none := h
          rw [h2]
        · have h2 : _weighted_daily_return (basePairs (sectorBase fund snr)) = none := h
          rw [h2]
          rcases _weighted_daily_return (basePairs
            ((sectorBase fund snr).filter (fun b => decide (b.twse_industry = key)))) with _ | iv <;> rfl
      refine ⟨hdiffn, ?_⟩
      show relationOf (perfRowFor (sectorBase fund snr)
        (_weighted_daily_return (basePairs (sectorBase fund snr))) (3/1000) key).diff (3/1000) =
        "相似"
      rw [hdiffn]
      rfl

theorem snrStep_last_dates_skip (acc : SnrAcc) (t : String)
    (r : Except Unit (Option (List RawBar)))
    (h : r = .error () ∨ ∃ ro, r = .ok ro ∧ (fetch_history ro).isEmpty) :
    snrStep acc t r = acc := by
  rcases h with h | ⟨ro, hro, hemp⟩
  · rw [h]; rfl
  · rw [hro]
    simp only [snrStep]
    rw [if_pos hemp]

theorem snrStep_last_dates_keep (acc : SnrAcc) (t : String) (ro : Option (List RawBar))
    (hne : ¬ (fetch_history ro).isEmpty) :
    (snrStep acc t (.ok ro)).last_dates = acc.last_dates ++ [lastDateOf (fetch_history ro)] := by
  simp only [snrStep]
  rw [if_neg hne]
  split
  · rfl
  · rfl
  · split <;> rfl

theorem snrLoop_go_last_dates (resp : String → Except Unit (Option (List RawBar))) :
    ∀ (tickers : List String) (acc : SnrAcc),
      (tickers.foldl (fun a t => snrStep a t (resp t)) acc).last_dates =
        acc.last_dates ++ mostRecentDates tickers resp := by
  intro tickers
  induction tickers with
  | nil => intro acc; simp [mostRecentDates]
  | cons t ts ih =>
    intro acc
    rw [List.foldl_cons, ih (snrStep acc t (resp t))]
    rcases hr : resp t with e | ro
    · rw [show snrStep acc t (.error e) = acc from rfl]
      rw [show mostRecentDates (t :: ts) resp = mostRecentDates ts resp from by
        simp only [mostRecentDates, List.filterMap_cons, hr]]
    · by_cases hh : (fetch_history ro).isEmpty
      · rw [show snrStep acc t (.ok ro) = acc from by
          simp only [snrStep]
          rw [if_pos hh]]
        rw [show mostRecentDates (t :: ts) resp = mostRecentDates ts resp from by
          simp only [mostRecentDates, List.filterMap_cons, hr]
          rw [if_pos hh]]
      · rw [snrStep_last_dates_keep acc t ro hh]
        rw [show mostRecentDates (t :: ts) resp =
            lastDateOf (fetch_history ro) :: mostRecentDates ts resp from by
          simp only [mostRecentDates, List.filterMap_cons, hr]
          rw [if_neg hh]]
        simp

theorem snrLoop_last_dates (tickers : List String)
    (resp : String → Except Unit (Option (List RawBar))) :
    (snrLoop tickers resp).last_dates = mostRecentDates tickers resp := by
  unfold snrLoop
  rw [snrLoop_go_last_dates resp tickers ⟨[], []⟩]
  rfl

theorem fallbackOutcome_ne_written (pf ps : List (String × List (String × String)))
    (td : String) (f : List (String × Nat)) (s : List (SnrSummaryRow × Nat)) (d : Nat) :
    fallbackOutcome pf ps td ≠ .written f s d := by
  unfold fallbackOutcome
  rcases use_previous_as_fallback pf ps td with _ | r <;> simp

/-- C8 (confirmed): whenever main writes new data, the cycle's as-of date
is the maximum of the per-symbol most-recent observed trading dates, and
every row of both persisted tables is stamped with that single shared
date. -/
theorem claim_C8 (tickers_df : List TickerRow) (pull : String → Except Unit String)
    (resp : String → Except Unit (Option (List RawBar)))
    (prev_f prev_s : List (String × List (String × String))) (today : String)
    (fund : List (String × Nat)) (snr : List (SnrSummaryRow × Nat)) (d : Nat)
    (h : main tickers_df pull resp prev_f prev_s today = .written fund snr d) :
    (d ∈ mostRecentDates (tickers_df.map (·.yahoo)) resp ∧
      ∀ x ∈ mostRecentDates (tickers_df.map (·.yahoo)) resp, x ≤ d) ∧
    (∀ p ∈ fund, p.2 = d) ∧ (∀ p ∈ snr, p.2 = d) := by
  simp only [main] at h
  split at h
  · exact absurd h (fallbackOutcome_ne_written prev_f prev_s today fund snr d)
  · split at h
    · exact absurd h (fallbackOutcome_ne_written prev_f prev_s today fund snr d)
    · split at h
      · exact absurd h (fallbackOutcome_ne_written prev_f prev_s today fund snr d)
      · rename_i hc3
        injection h with hA hB hC
        have hlds := snrLoop_last_dates (tickers_df.map (·.yahoo)) resp
        have hldne : (snrLoop (tickers_df.map (·.yahoo)) resp).last_dates ≠ [] := by
          intro h0
          apply hc3
          rw [h0]
          simp
        refine ⟨⟨?_, ?_⟩, ?_, ?_⟩
        · rw [← hC, ← hlds]
          exact maxNat_mem hldne
        · intro x hx
          rw [← hC]
          exact le_maxNat (by rw [hlds]; exact hx)
        · intro p hp
          rw [← hA] at hp
          obtain ⟨r0, _, hpe⟩ := List.mem_map.mp hp
          rw [← hpe, ← hC]
        · intro p hp
          rw [← hB] at hp
          obtain ⟨r0, _, hpe⟩ := List.mem_map.mp hp
          rw [← hpe, ← hC]

/-- C8 witness: a 100-ticker registry where only ticker "0" has data — 30
constant-close bars on dates 0..29 — writes both tables stamped with the
maximal last trading date 29. -/
theorem claim_C8_witness :
    (29 ∈ mostRecentDates (w8tickers.map (·.yahoo)) w8resp ∧
      ∀ x ∈ mostRecentDates (w8tickers.map (·.yahoo)) w8resp, x ≤ 29) ∧
    (∀ p ∈ w8fund, p.2 = 29) ∧ (∀ p ∈ w8snr, p.2 = 29) :=
  claim_C8 w8tickers w8pull w8resp [] [] "2024-01-08" w8fund w8snr 29
    (by with_unfolding_all decide)

end StockSnr
